import Mathlib

/-!
Verification development for the crypto-data-binance market-data pipeline.

Each subsystem touched by the specification claims is shallowly embedded:
pure functions of the TypeScript source become Lean functions, stateful
loops become explicit state passing, SQL tables become lists of row
structures, and JavaScript numbers become integers, rationals, or reals
depending on how the code uses them.
-/

/- ### Alert queue processor (AlertQueueProcessor and Store alert operations) -/

/-- One alert_queue row, restricted to the columns the processor reads and
writes: attempt_count, last_error, processed_at (modelled as a Bool flag,
since only null-ness of processed_at is ever consulted). -/
structure AlertEntry where
  attemptCount : Nat
  lastError : Option String
  processed : Bool
  deriving DecidableEq

/-- Store.markAlertAttempt: attempt_count = attempt_count + 1. -/
def markAlertAttempt (e : AlertEntry) : AlertEntry :=
  { e with attemptCount := e.attemptCount + 1 }

/-- Store.markAlertProcessed: sets processed_at; clears last_error exactly
when the clearError option (default true) is set. -/
def markAlertProcessed (clearError : Bool) (e : AlertEntry) : AlertEntry :=
  { e with processed := true
           lastError := if clearError then none else e.lastError }

/-- Store.markAlertFailure: stores the error message. -/
def markAlertFailure (msg : String) (e : AlertEntry) : AlertEntry :=
  { e with lastError := some msg }

/-- Outcome of one call of the external sink AlertService.sendCvdAlert. -/
inductive SinkOutcome where
  | success : SinkOutcome
  | failure : String → SinkOutcome
  deriving DecidableEq

/-- One processor cycle (AlertQueueProcessor.processQueue followed by
processRecord) restricted to a single queue entry. Returns the updated
entry, whether the sink was invoked, and whether that invocation
succeeded. A processed entry is not returned by getPendingAlerts, so the
cycle leaves it untouched. An entry with attemptCount at or past
maxAttempts goes through the exhaustion branch without a sink call.
Otherwise processRecord marks the attempt, invokes the sink, and on
failure additionally marks the entry processed (clearError = false) when
the pre-increment attemptCount + 1 reaches maxAttempts. -/
def cycleStep (maxAttempts : Nat) (e : AlertEntry) (out : SinkOutcome) :
    AlertEntry × Bool × Bool :=
  if e.processed then (e, false, false)
  else if maxAttempts ≤ e.attemptCount then
    (markAlertProcessed false (markAlertFailure "Retry limit reached" e), false, false)
  else
    let e1 := markAlertAttempt e
    match out with
    | SinkOutcome.success => (markAlertProcessed true e1, true, true)
    | SinkOutcome.failure msg =>
      let e2 := markAlertFailure msg e1
      if maxAttempts ≤ e.attemptCount + 1 then
        (markAlertProcessed false e2, true, false)
      else (e2, true, false)

/-- Result of running a sequence of processor cycles against one entry:
final row state, total number of sink invocations, and whether some
invocation succeeded. -/
structure QueueRunResult where
  entry : AlertEntry
  invocations : Nat
  succeeded : Bool
  deriving DecidableEq

/-- Run the processor cycles of cycleStep over a list of sink outcomes
(the i-th outcome is what the sink would return if invoked on cycle i). -/
def runCycles (maxAttempts : Nat) (e : AlertEntry) :
    List SinkOutcome → QueueRunResult
  | [] => ⟨e, 0, false⟩
  | out :: rest =>
    let step := cycleStep maxAttempts e out
    let tail := runCycles maxAttempts step.1 rest
    ⟨tail.entry, (if step.2.1 then 1 else 0) + tail.invocations,
      step.2.2 || tail.succeeded⟩

/-- A freshly enqueued alert entry (Store.enqueueAlert defaults:
attempt_count 0, last_error null, processed_at null). -/
def freshAlertEntry : AlertEntry := ⟨0, none, false⟩

/- ### Store.hasRecentAlertOrPending -/

/-- An alert_queue row as seen by the suppression query. -/
structure SuppressionQueueRow where
  alertType : String
  symbol : String
  timestamp : Int
  processed : Bool
  deriving DecidableEq

/-- An alert_history row as seen by the suppression query. -/
structure AlertHistoryRow where
  alertType : String
  symbol : String
  timestamp : Int
  deriving DecidableEq

/-- The alert store state consulted by hasRecentAlertOrPending. -/
structure AlertStore where
  queue : List SuppressionQueueRow
  history : List AlertHistoryRow
  deriving DecidableEq

/-- Store.hasRecentAlertOrPending: first query matches an alert_queue row
with the same alert_type and symbol that is unprocessed or has
timestamp at or after the cutoff; the second query matches an
alert_history row with the same alert_type and symbol and timestamp at or
after the cutoff. -/
def hasRecentAlertOrPending (st : AlertStore) (alertType symbol : String)
    (sinceTimestamp : Int) : Bool :=
  st.queue.any (fun r =>
    r.alertType == alertType && r.symbol == symbol &&
      (!r.processed || sinceTimestamp ≤ r.timestamp)) ||
  st.history.any (fun r =>
    r.alertType == alertType && r.symbol == symbol &&
      sinceTimestamp ≤ r.timestamp)

/-- The predicate claimed by the specification for
hasRecentAlertOrPending, written from the spec words: some pending
(unprocessed) queue entry exists, or alert_history has a row for the
alertType and symbol with timestamp at or after the cutoff. -/
def hasRecentAlertOrPendingSpec (st : AlertStore) (alertType symbol : String)
    (sinceTimestamp : Int) : Bool :=
  st.queue.any (fun r => !r.processed) ||
  st.history.any (fun r =>
    r.alertType == alertType && r.symbol == symbol &&
      sinceTimestamp ≤ r.timestamp)

/- ### Store bulk inserts (saveTradeData, saveLiquidationEvents) -/

/-- A trade_data row (columns of the INSERT in Store.saveTradeData;
REAL columns modelled as rationals). -/
structure TradeDataRow where
  symbol : String
  marketType : String
  tradeId : String
  timestamp : Int
  price : Rat
  amount : Rat
  direction : String
  streamType : String
  deriving DecidableEq

/-- The conflict key of trade_data: PRIMARY KEY (symbol, market_type, trade_id). -/
def tradeKey (r : TradeDataRow) : String × String × String :=
  (r.symbol, r.marketType, r.tradeId)

/-- A liquidation_events row (columns of the INSERT in
Store.saveLiquidationEvents). -/
structure LiquidationEventRow where
  eventId : String
  symbol : String
  marketType : String
  side : String
  price : Rat
  averagePrice : Option Rat
  lastFilledPrice : Option Rat
  originalQuantity : Rat
  filledQuantity : Rat
  lastFilledQuantity : Option Rat
  eventTime : Int
  tradeTime : Option Int
  orderType : Option String
  timeInForce : Option String
  status : Option String
  orderId : Option String
  isMaker : Bool
  reduceOnly : Option Bool
  createdAt : Int
  deriving DecidableEq

/-- INSERT OR IGNORE against a table whose conflict key is computed by
key: the row is appended unless a row with the same key already exists. -/
def insertOrIgnore {α κ : Type} [DecidableEq κ] (key : α → κ)
    (table : List α) (row : α) : List α :=
  if table.any (fun x => decide (key x = key row)) then table
  else table ++ [row]

/-- Store.saveTradeData: one INSERT OR IGNORE per batch row, in order,
inside a single transaction. -/
def saveTradeData (table : List TradeDataRow) (batch : List TradeDataRow) :
    List TradeDataRow :=
  batch.foldl (insertOrIgnore tradeKey) table

/-- Store.saveLiquidationEvents: one INSERT OR IGNORE per batch row, in
order, inside a single transaction; conflict key is the event_id primary key. -/
def saveLiquidationEvents (table : List LiquidationEventRow)
    (batch : List LiquidationEventRow) : List LiquidationEventRow :=
  batch.foldl (insertOrIgnore LiquidationEventRow.eventId) table

/-- Key uniqueness of a table (at most one row per conflict key). -/
def keysUnique {α κ : Type} [DecidableEq κ] (key : α → κ) (table : List α) : Prop :=
  table.Pairwise (fun a b => key a ≠ key b)

/- ### Streaming collector flush (TradeDataCollector.flushTradeBuffer) -/

/-- State visible to one flush: the persisted rows so far (db), the
buffer contents at flush start (buf), and the trades that arrive while
the bulk insert is in flight (arrivals). -/
structure FlushResult where
  db : List TradeDataRow
  buffer : List TradeDataRow
  savedEvents : List Nat
  errorEvents : Nat
  deriving DecidableEq

/-- TradeDataCollector.flushTradeBuffer: an empty buffer returns at once;
otherwise the buffer is swapped out atomically, the batch is bulk
inserted, a tradeDataSaved(count) event fires on success, and on failure
the batch is unshifted back in front of whatever arrived during the
flush. -/
def flushTradeBuffer (db buf arrivals : List TradeDataRow) (saveOk : Bool) :
    FlushResult :=
  if buf.isEmpty then ⟨db, arrivals, [], 0⟩
  else if saveOk then ⟨db ++ buf, arrivals, [buf.length], 0⟩
  else ⟨db, buf ++ arrivals, [], 1⟩

/-- Run a sequence of flush rounds; each round supplies the trades that
arrive during that flush and whether the bulk insert succeeds. -/
def runFlushes (db buf : List TradeDataRow) :
    List (List TradeDataRow × Bool) → FlushResult
  | [] => ⟨db, buf, [], 0⟩
  | (arrivals, ok) :: rest =>
    let r := flushTradeBuffer db buf arrivals ok
    let tail := runFlushes r.db r.buffer rest
    ⟨tail.db, tail.buffer, r.savedEvents ++ tail.savedEvents,
      r.errorEvents + tail.errorEvents⟩

/- ### RateLimiter token bucket (RateLimiter.process / refillTokens) -/

/-- Per-endpoint token bucket state (EndpointState in rate-limiter.ts,
restricted to the numeric fields the admission decision reads). Times are
epoch milliseconds as naturals. -/
structure EndpointState where
  capacity : Nat
  tokens : Nat
  refillIntervalMs : Nat
  lastRefill : Nat
  deriving DecidableEq

/-- RateLimiter.refillTokens: when at least one full interval elapsed,
add capacity tokens per elapsed whole interval (capped at capacity) and
advance lastRefill by the consumed whole intervals. -/
def refillTokens (now : Nat) (s : EndpointState) : EndpointState :=
  if s.refillIntervalMs ≤ now - s.lastRefill then
    let intervals := (now - s.lastRefill) / s.refillIntervalMs
    { s with
        tokens := min s.capacity (s.tokens + s.capacity * intervals)
        lastRefill := s.lastRefill + s.refillIntervalMs * intervals }
  else s

/-- The admission step of RateLimiter.process at time now for a request
of the given weight: refill, then start the task only when enough tokens
are available, consuming the weight. none models a state in which
process would instead park the request behind a timer. -/
def execStep (s : EndpointState) (now weight : Nat) : Option EndpointState :=
  let s1 := refillTokens now s
  if weight ≤ s1.tokens then some { s1 with tokens := s1.tokens - weight }
  else none

/-- Run a chronological trace of task starts, each entry being
(start time, weight); some means every start respected the admission
guard of process. -/
def runTrace (s : EndpointState) : List (Nat × Nat) → Option EndpointState
  | [] => some s
  | (t, w) :: rest =>
    match execStep s t w with
    | some s1 => runTrace s1 rest
    | none => none

/-- The trace times are nondecreasing and start no earlier than the given
base time. -/
def chronologicalFrom : Nat → List (Nat × Nat) → Bool
  | _, [] => true
  | t0, (t, _) :: rest => decide (t0 ≤ t) && chronologicalFrom t rest

/-- Sum of the weights of trace entries whose start time falls in the
half-open window [lo, hi). -/
def windowSum (lo hi : Nat) (trace : List (Nat × Nat)) : Nat :=
  ((trace.filter (fun e => decide (lo ≤ e.1) && decide (e.1 < hi))).map
    (fun e => e.2)).sum

/- ### Historical aggregated-trade fetcher (AggTradeCollector.performFetch) -/

/-- An aggregated trade as returned by the REST client (AggTrade in
types; REAL fields as rationals). -/
structure AggTrade where
  aggregateId : Int
  price : Rat
  quantity : Rat
  firstTradeId : Int
  lastTradeId : Int
  tradeTime : Int
  isBuyerMaker : Bool
  deriving DecidableEq

/-- MAX_REST_ITERATIONS in the collector. -/
def maxRestIterations : Nat := 50

/-- The cursor the collector starts a target with: checkpoint.tradeTime + 1
when a checkpoint exists, otherwise now minus the initial lookback; on a
scheduled (non-initial) cycle the cursor is raised to at least
now minus the fetch interval. -/
def startCursor (checkpoint : Option Int) (now initialLookbackMs fetchIntervalMs : Int)
    (scheduled : Bool) : Int :=
  let cursor :=
    match checkpoint with
    | some tradeTime => tradeTime + 1
    | none => now - initialLookbackMs
  if scheduled then max cursor (now - fetchIntervalMs) else cursor

/-- The page loop of performFetch for a single target. fetchPage models
the REST endpoint as a function of the startTime cursor (the limit being
fixed). Every iteration that performs a fetch is recorded as
(cursor used, page returned); the loop ends on an empty page, on a short
page (fewer than restLimit trades), or when the iteration budget is
exhausted. The successor cursor is lastTrade.tradeTime + 1. -/
def fetchPages (fetchPage : Int → List AggTrade) (restLimit : Nat) :
    Nat → Int → List (Int × List AggTrade)
  | 0, _ => []
  | fuel + 1, cursor =>
    let trades := fetchPage cursor
    match trades.getLast? with
    | none => [(cursor, trades)]
    | some lastTrade =>
      if trades.length < restLimit then [(cursor, trades)]
      else (cursor, trades) :: fetchPages fetchPage restLimit fuel (lastTrade.tradeTime + 1)

/-- performFetch for one target of one cycle: the cursor is initialised
from the checkpoint and the loop runs with the MAX_REST_ITERATIONS budget. -/
def performFetchTarget (checkpoint : Option Int)
    (now initialLookbackMs fetchIntervalMs : Int) (scheduled : Bool)
    (fetchPage : Int → List AggTrade) (restLimit : Nat) :
    List (Int × List AggTrade) :=
  fetchPages fetchPage restLimit maxRestIterations
    (startCursor checkpoint now initialLookbackMs fetchIntervalMs scheduled)

/- ### Backup retention (DatabaseBackupScheduler.enforceRetention) -/

/-- Proleptic Gregorian civil date (year, month, day) of a day count since
1970-01-01, as computed by the JavaScript Date UTC accessors. -/
def civilFromDays (z : Int) : Int × Int × Int :=
  let z1 := z + 719468
  let era := Int.fdiv z1 146097
  let doe := z1 - era * 146097
  let yoe := Int.fdiv (doe - Int.fdiv doe 1460 + Int.fdiv doe 36524 - Int.fdiv doe 146096) 365
  let y := yoe + era * 400
  let doy := doe - (365 * yoe + Int.fdiv yoe 4 - Int.fdiv yoe 100)
  let mp := Int.fdiv (5 * doy + 2) 153
  let d := doy - Int.fdiv (153 * mp + 2) 5 + 1
  let m := mp + (if mp < 10 then 3 else -9)
  (y + (if m ≤ 2 then 1 else 0), m, d)

/-- Day count since 1970-01-01 of a civil date, as computed by Date.UTC. -/
def daysFromCivil (y m d : Int) : Int :=
  let y1 := y - (if m ≤ 2 then 1 else 0)
  let era := Int.fdiv y1 400
  let yoe := y1 - era * 400
  let mp := m + (if 2 < m then -3 else 9)
  let doy := Int.fdiv (153 * mp + 2) 5 + d - 1
  let doe := yoe * 365 + Int.fdiv yoe 4 - Int.fdiv yoe 100 + doy
  era * 146097 + doe - 719468

/-- Two-digit zero padding of the ISO week number (String.padStart 2 with 0). -/
def padTwo (n : Int) : String :=
  if n < 10 then "0" ++ toString n else toString n

/-- DatabaseBackupScheduler.getIsoWeekKey: truncate the timestamp to its
UTC date, move to the Thursday of that ISO week, and derive the ISO week
year and week number from the distance to January 1st of that year. -/
def getIsoWeekKey (ts : Int) : String :=
  let day := Int.fdiv ts 86400000
  let weekday := Int.emod (day + 4) 7
  let dayNum := if weekday = 0 then 7 else weekday
  let thursday := day + 4 - dayNum
  let year := (civilFromDays thursday).1
  let yearStart := daysFromCivil year 1 1
  let weekNo := Int.fdiv (thursday - yearStart + 7) 7
  toString year ++ "-W" ++ padTwo weekNo

/-- A backup file as seen by enforceRetention: its path and the result of
extractTimestamp on its name (none when the name does not parse). -/
structure BackupFile where
  path : String
  tsMs : Option Int
  deriving DecidableEq

/-- The mutable state of the enforceRetention pass: the accumulated
deletion list and the per-ISO-week keeper map (weekKey to (path, ts)). -/
structure RetentionState where
  toDelete : List String
  weeklyKeeper : List (String × String × Int)
  deriving DecidableEq

/-- Map.get on the weekly keeper. -/
def keeperLookup (m : List (String × String × Int)) (k : String) :
    Option (String × Int) :=
  match m.find? (fun e => e.1 == k) with
  | some e => some e.2
  | none => none

/-- Map.set on the weekly keeper. -/
def keeperInsert (m : List (String × String × Int)) (k : String)
    (v : String × Int) : List (String × String × Int) :=
  (k, v) :: m.filter (fun e => !(e.1 == k))

/-- The per-file body of the enforceRetention loop: skip unparseable
names; keep everything at or after the daily threshold; delete everything
before the weekly threshold; in between, keep exactly the newest file per
ISO week, displacing an older keeper into the deletion list. -/
def retentionStep (dailyThreshold weeklyThreshold : Int)
    (st : RetentionState) (file : BackupFile) : RetentionState :=
  match file.tsMs with
  | none => st
  | some ts =>
    if dailyThreshold ≤ ts then st
    else if ts < weeklyThreshold then
      { st with toDelete := st.toDelete ++ [file.path] }
    else
      let weekKey := getIsoWeekKey ts
      match keeperLookup st.weeklyKeeper weekKey with
      | some existing =>
        if existing.2 < ts then
          { toDelete := st.toDelete ++ [existing.1]
            weeklyKeeper := keeperInsert st.weeklyKeeper weekKey (file.path, ts) }
        else { st with toDelete := st.toDelete ++ [file.path] }
      | none =>
        { st with weeklyKeeper := keeperInsert st.weeklyKeeper weekKey (file.path, ts) }

/-- DatabaseBackupScheduler.enforceRetention: thresholds from the policy,
one pass over the listed backup files, returning the deleted paths. -/
def enforceRetention (now dailyDays weeklyWeeks : Int)
    (files : List BackupFile) : List String :=
  let dailyThreshold := now - dailyDays * 24 * 60 * 60 * 1000
  let weeklyThreshold := now - weeklyWeeks * 7 * 24 * 60 * 60 * 1000
  (files.foldl (retentionStep dailyThreshold weeklyThreshold) ⟨[], []⟩).toDelete

/- ### Push-channel trade decoding (BinanceTradeWebSocketClient.handleMessage) -/

/-- The result of the JavaScript Number() conversion of a field: a finite
value (trade timestamps and ids are integral) or NaN / Infinity. -/
inductive JsNum where
  | val : Int → JsNum
  | nonFinite : JsNum
  deriving DecidableEq

/-- A present JSON field value, abstracted by its String() rendering and
its Number() conversion. -/
structure JsValue where
  asString : String
  asNumber : JsNum
  deriving DecidableEq

/-- Number() of a possibly absent field: Number(undefined) is NaN. -/
def toNumber : Option JsValue → JsNum
  | none => JsNum.nonFinite
  | some v => v.asNumber

/-- Number.isFinite. -/
def jsNumIsFinite : JsNum → Bool
  | JsNum.val _ => true
  | JsNum.nonFinite => false

/-- Template-literal rendering of a JavaScript number. -/
def jsNumToString : JsNum → String
  | JsNum.val n => toString n
  | JsNum.nonFinite => "NaN"

/-- The fields of a parsed trade-stream message that handleMessage reads
(after envelope unwrapping). bigA, bigT, bigE stand for the upper-case
A, T, E fields; m is the truthiness of the buyer-is-maker flag. -/
structure WsTradeMessage where
  e : Option String
  s : Option String
  a : Option JsValue
  bigA : Option JsValue
  t : Option JsValue
  bigT : Option JsValue
  bigE : Option JsValue
  eventTime : Option JsValue
  p : Option JsValue
  price : Option JsValue
  q : Option JsValue
  quantity : Option JsValue
  m : Bool
  deriving DecidableEq

/-- A typed Trade as emitted on the trade event. -/
structure TradeEvent where
  symbol : String
  marketType : String
  streamType : String
  tradeId : String
  price : Int
  amount : Int
  timestamp : Int
  direction : String
  deriving DecidableEq

/-- BinanceTradeWebSocketClient.handleMessage on an already parsed
message object: unknown event types and missing symbols are dropped, the
trade id falls back through the per-event-type id fields to the
synthesized symbol-timestamp string, and the message is dropped unless
price, quantity, and timestamp all convert to finite numbers. -/
def handleMessage (marketType : String) (msg : WsTradeMessage) :
    Option TradeEvent :=
  match msg.e with
  | none => none
  | some eventType =>
    if eventType = "aggTrade" ∨ eventType = "trade" then
      match msg.s with
      | none => none
      | some symbol =>
        let tradeIdValue :=
          if eventType = "aggTrade" then msg.a <|> msg.bigA
          else msg.t <|> msg.bigT <|> msg.a <|> msg.bigA
        let priceNum := toNumber (msg.p <|> msg.price)
        let quantityNum := toNumber (msg.q <|> msg.quantity)
        let timestampNum := toNumber (msg.bigT <|> msg.bigE <|> msg.eventTime)
        let tradeId :=
          match tradeIdValue with
          | some v => v.asString
          | none => symbol ++ "-" ++ jsNumToString timestampNum
        match priceNum, quantityNum, timestampNum with
        | JsNum.val priceVal, JsNum.val quantityVal, JsNum.val timestampVal =>
          some { symbol := symbol, marketType := marketType,
                 streamType := eventType, tradeId := tradeId,
                 price := priceVal, amount := quantityVal,
                 timestamp := timestampVal,
                 direction := if msg.m then "sell" else "buy" }
        | _, _, _ => none
    else none

/- ### CVD aggregation worker threshold logic (CvdAggregationWorker) -/

/-- CvdAggregationWorker.toSignedLog over the reals (the finiteness guard
of the source is vacuous here): zero below unit magnitude, otherwise the
logarithm of the magnitude carrying the sign of the input. -/
noncomputable def toSignedLog (value : ℝ) : ℝ :=
  if |value| < 1 then 0
  else if 0 ≤ value then Real.log |value| else -Real.log |value|

/-- The signed-log transform exactly as the specification words it. -/
noncomputable def signedLogSpec (v : ℝ) : ℝ :=
  if 1 ≤ |v| then Real.sign v * Real.log |v| else 0

/-- The threshold fields the worker constructor derives from the
configured threshold. -/
structure CvdWorkerSettings where
  logZScoreThreshold : ℝ
  rawZScoreThreshold : ℝ

/-- CvdAggregationWorker constructor: the log-domain threshold is clamped
below by 0.1 and the raw threshold is its exponential. -/
noncomputable def mkCvdWorkerSettings (threshold : ℝ) : CvdWorkerSettings :=
  { logZScoreThreshold := max threshold 0.1
    rawZScoreThreshold := Real.exp (max threshold 0.1) }

/-- The alert payload handed to the worker by the aggregator library. -/
structure CvdAlertPayloadIn where
  symbol : String
  timestamp : Int
  triggerSource : String
  triggerZScore : ℝ
  zScore : ℝ
  deltaZScore : ℝ
  delta : ℝ
  cumulativeValue : ℝ

/-- The enriched payload the worker persists to the queue
(ExtendedCvdAlertPayload; the two finiteness-guarded optional fields are
always set over the reals). -/
structure ExtendedCvdAlertPayload where
  symbol : String
  timestamp : Int
  triggerSource : String
  triggerZScore : ℝ
  zScore : ℝ
  deltaZScore : ℝ
  delta : ℝ
  cumulativeValue : ℝ
  threshold : ℝ
  rawThreshold : ℝ
  logThreshold : ℝ
  rawTriggerZScore : ℝ
  logTriggerZScore : ℝ
  rawZScore : ℝ
  rawDeltaZScore : ℝ
  logZScore : ℝ
  logDeltaZScore : ℝ

/-- CvdAggregationWorker.buildAlertPayload: drop the alert when the
signed log of the trigger z-score is below the log threshold in
magnitude, otherwise enrich the payload with the raw and log domain
threshold and z-score fields (threshold is overridden with the log
threshold). -/
noncomputable def buildAlertPayload (w : CvdWorkerSettings)
    (p : CvdAlertPayloadIn) : Option ExtendedCvdAlertPayload :=
  let logTriggerZScore := toSignedLog p.triggerZScore
  if |logTriggerZScore| < w.logZScoreThreshold then none
  else
    some { symbol := p.symbol, timestamp := p.timestamp,
           triggerSource := p.triggerSource,
           triggerZScore := p.triggerZScore, zScore := p.zScore,
           deltaZScore := p.deltaZScore, delta := p.delta,
           cumulativeValue := p.cumulativeValue,
           threshold := w.logZScoreThreshold,
           rawThreshold := w.rawZScoreThreshold,
           logThreshold := w.logZScoreThreshold,
           rawTriggerZScore := p.triggerZScore,
           logTriggerZScore := logTriggerZScore,
           rawZScore := p.zScore, rawDeltaZScore := p.deltaZScore,
           logZScore := toSignedLog p.zScore,
           logDeltaZScore := toSignedLog p.deltaZScore }

/-- CvdAggregationWorker.enqueueAlert: nothing is enqueued when alerts
are globally disabled or explicitly disabled for the aggregator;
otherwise the transformed payload (when the gate passes) is enqueued. -/
noncomputable def enqueueAlert (alertsEnabled : Bool)
    (configAlertsEnabled : Option Bool) (w : CvdWorkerSettings)
    (p : CvdAlertPayloadIn) : Option ExtendedCvdAlertPayload :=
  if !alertsEnabled || configAlertsEnabled == some false then none
  else buildAlertPayload w p

/-- A concrete aggregator payload whose trigger z-score is exp 0.07,
used to exercise the threshold clamp. -/
noncomputable def cvdPayloadLowTrigger : CvdAlertPayloadIn :=
  { symbol := "BTC_CVD", timestamp := 0, triggerSource := "cumulative",
    triggerZScore := Real.exp 0.07, zScore := Real.exp 0.07,
    deltaZScore := 0, delta := 0, cumulativeValue := 0 }

/-- A concrete aggregator payload whose trigger z-score is exp 2. -/
noncomputable def cvdPayloadHighTrigger : CvdAlertPayloadIn :=
  { symbol := "BTC_CVD", timestamp := 0, triggerSource := "cumulative",
    triggerZScore := Real.exp 2, zScore := Real.exp 2,
    deltaZScore := 0, delta := 0, cumulativeValue := 0 }

/-- A file timestamp lies in the weekly-retention zone: before the daily
threshold but not before the weekly threshold. -/
def inWeeklyZone (dailyThreshold weeklyThreshold ts : Int) : Prop :=
  weeklyThreshold ≤ ts ∧ ts < dailyThreshold

/-- A path may legitimately be deleted by the retention pass over the
file list L: its file is older than the weekly threshold, or it sits in
the weekly zone and some strictly newer same-ISO-week file in the weekly
zone exists in L. -/
def DeleteReason (dailyThreshold weeklyThreshold : Int)
    (L : List BackupFile) (x : String) : Prop :=
  ∃ f ∈ L, ∃ t, f.tsMs = some t ∧ f.path = x ∧ t < dailyThreshold ∧
    (t < weeklyThreshold ∨
      (inWeeklyZone dailyThreshold weeklyThreshold t ∧
        ∃ g ∈ L, ∃ tg, g.tsMs = some tg ∧
          inWeeklyZone dailyThreshold weeklyThreshold tg ∧
          getIsoWeekKey tg = getIsoWeekKey t ∧ t < tg))

/-- The pair (p, t) names the newest weekly-zone file of ISO week k
within L. -/
def KeeperMax (dailyThreshold weeklyThreshold : Int)
    (L : List BackupFile) (k : String) (p : String) (t : Int) : Prop :=
  ∃ f ∈ L, f.tsMs = some t ∧ f.path = p ∧
    inWeeklyZone dailyThreshold weeklyThreshold t ∧ getIsoWeekKey t = k ∧
    ∀ g ∈ L, ∀ tg, g.tsMs = some tg →
      inWeeklyZone dailyThreshold weeklyThreshold tg →
      getIsoWeekKey tg = k → tg ≤ t

/-- Loop invariant of the enforceRetention fold over the processed prefix
P: deletions are justified, keeper entries are per-week maxima, weeks
without a keeper entry have no weekly-zone file yet, files older than
both thresholds are already deleted, and every weekly-zone file is
deleted or is the keeper of its week. -/
def RetentionInv (dailyThreshold weeklyThreshold : Int)
    (P : List BackupFile) (st : RetentionState) : Prop :=
  (∀ x ∈ st.toDelete, DeleteReason dailyThreshold weeklyThreshold P x) ∧
  (∀ k p t, keeperLookup st.weeklyKeeper k = some (p, t) →
    KeeperMax dailyThreshold weeklyThreshold P k p t) ∧
  (∀ k, keeperLookup st.weeklyKeeper k = none →
    ∀ g ∈ P, ∀ tg, g.tsMs = some tg →
      inWeeklyZone dailyThreshold weeklyThreshold tg →
      getIsoWeekKey tg ≠ k) ∧
  (∀ f ∈ P, ∀ t, f.tsMs = some t → t < weeklyThreshold →
    t < dailyThreshold → f.path ∈ st.toDelete) ∧
  (∀ f ∈ P, ∀ t, f.tsMs = some t →
    inWeeklyZone dailyThreshold weeklyThreshold t →
    (f.path ∈ st.toDelete ∨
      keeperLookup st.weeklyKeeper (getIsoWeekKey t) = some (f.path, t)))

/-- The rows of a table whose conflict key equals k. -/
def rowsWithKey {α κ : Type} [DecidableEq κ] (key : α → κ) (k : κ)
    (table : List α) : List α :=
  table.filter (fun x => decide (key x = k))

/-- The concrete store refuting the spec reading of
hasRecentAlertOrPending: one processed queue entry with a recent
timestamp and an empty history. -/
def suppressionCexStore : AlertStore :=
  { queue := [{ alertType := "CVD_ZSCORE", symbol := "ETHUSDT",
                timestamp := 100, processed := true }]
    history := [] }

/-- Concrete rows used to exercise the idempotent bulk inserts. -/
def tradeRowEx : TradeDataRow :=
  { symbol := "ETHUSDT", marketType := "SPOT", tradeId := "101",
    timestamp := 1, price := 10, amount := 2, direction := "buy",
    streamType := "aggTrade" }

/-- A would-be duplicate of tradeRowEx: same conflict key, different
non-key fields. -/
def tradeRowExDup : TradeDataRow :=
  { tradeRowEx with price := 11, direction := "sell" }

/-- A concrete liquidation row. -/
def liqRowEx : LiquidationEventRow :=
  { eventId := "USDT-M:liquidation-1", symbol := "BTCUSDT",
    marketType := "USDT-M", side := "SELL", price := 25000,
    averagePrice := none, lastFilledPrice := none, originalQuantity := 1,
    filledQuantity := 1, lastFilledQuantity := none, eventTime := 5,
    tradeTime := none, orderType := none, timeInForce := none,
    status := none, orderId := none, isMaker := false, reduceOnly := none,
    createdAt := 5 }

/-- A would-be duplicate of liqRowEx with a different price. -/
def liqRowExDup : LiquidationEventRow := { liqRowEx with price := 26000 }

/-- A concrete aggTrade message with no trade-id fields, used to witness
the synthesized trade id. -/
def wsMsgEx : WsTradeMessage :=
  { e := some "aggTrade", s := some "BTCUSDT", a := none, bigA := none,
    t := none, bigT := some { asString := "1700", asNumber := JsNum.val 1700 },
    bigE := none, eventTime := none,
    p := some { asString := "25000", asNumber := JsNum.val 25000 },
    price := none,
    q := some { asString := "2", asNumber := JsNum.val 2 },
    quantity := none, m := false }

/-- Three concrete backup files for the retention witness: one inside
the daily horizon and two weekly-zone files in the same ISO week. -/
def retFilesEx : List BackupFile :=
  [{ path := "binance_data_19700126T000000Z.sqlite", tsMs := some (25 * 86400000) },
   { path := "binance_data_19700127T000000Z.sqlite", tsMs := some (26 * 86400000) },
   { path := "binance_data_19700210T000000Z.sqlite", tsMs := some (39 * 86400000 + 3600000) }]

/- ## Theorems -/

/-- Claim C4 (amended): hasRecentAlertOrPending returns true iff the
queue has an entry for the given alertType and symbol that is pending or
has timestamp at or after sinceTs, or alert_history has a row for them
with timestamp at or after sinceTs. -/
theorem hasRecentAlertOrPending_eq_true_iff (st : AlertStore)
    (alertType symbol : String) (sinceTs : Int) :
    hasRecentAlertOrPending st alertType symbol sinceTs = true ↔
      (∃ r ∈ st.queue, r.alertType = alertType ∧ r.symbol = symbol ∧
        (r.processed = false ∨ sinceTs ≤ r.timestamp)) ∨
      (∃ r ∈ st.history, r.alertType = alertType ∧ r.symbol = symbol ∧
        sinceTs ≤ r.timestamp) := by
  simp [hasRecentAlertOrPending, List.any_eq_true, Bool.and_eq_true,
    Bool.or_eq_true, Bool.not_eq_true', beq_iff_eq, decide_eq_true_eq,
    and_assoc]

/-- Claim C4 counterexample: a store whose only queue entry is processed
with a recent timestamp (and whose history is empty) makes
hasRecentAlertOrPending return true although no pending entry and no
matching history row exists, refuting the claimed characterization. -/
theorem hasRecentAlertOrPending_spec_cex :
    hasRecentAlertOrPending suppressionCexStore "CVD_ZSCORE" "ETHUSDT" 50 = true ∧
    hasRecentAlertOrPendingSpec suppressionCexStore "CVD_ZSCORE" "ETHUSDT" 50 = false ∧
    (suppressionCexStore.queue.all (fun r => r.processed)) = true ∧
    suppressionCexStore.history = [] := by
  constructor
  · decide
  · constructor
    · decide
    · exact ⟨by decide, rfl⟩

theorem rowsWithKey_insertOrIgnore {α κ : Type} [DecidableEq κ] (key : α → κ)
    (k : κ) (table : List α) (row r : α)
    (h : rowsWithKey key k table = [r]) :
    rowsWithKey key k (insertOrIgnore key table row) = [r] := by
  unfold insertOrIgnore
  split
  · exact h
  · rename_i hnone
    unfold rowsWithKey at h ⊢
    rw [List.filter_append, h]
    have hk : ¬ key row = k := by
      intro hkr
      have hr : r ∈ List.filter (fun x => decide (key x = k)) table := by
        rw [h]; exact List.mem_singleton_self r
      have hrt := List.mem_of_mem_filter hr
      have hrk : key r = k := by simpa using List.of_mem_filter hr
      exact hnone (List.any_eq_true.2 ⟨r, hrt, by simp [hrk, hkr]⟩)
    simp [List.filter_cons, hk]

theorem keysUnique_insertOrIgnore {α κ : Type} [DecidableEq κ] (key : α → κ)
    (table : List α) (row : α) (h : keysUnique key table) :
    keysUnique key (insertOrIgnore key table row) := by
  unfold insertOrIgnore
  split
  · exact h
  · rename_i hnone
    unfold keysUnique at h ⊢
    rw [List.pairwise_append]
    refine ⟨h, List.pairwise_singleton _ _, ?_⟩
    intro a ha b hb
    rw [List.mem_singleton] at hb
    subst hb
    intro hab
    exact hnone (List.any_eq_true.2 ⟨a, ha, by simp [hab]⟩)

theorem rowsWithKey_of_mem {α κ : Type} [DecidableEq κ] (key : α → κ)
    (table : List α) (r : α) (hU : keysUnique key table) (hr : r ∈ table) :
    rowsWithKey key (key r) table = [r] := by
  induction table with
  | nil => cases hr
  | cons a l ih =>
    rw [keysUnique, List.pairwise_cons] at hU
    rcases hU with ⟨ha, hl⟩
    unfold rowsWithKey
    rcases List.mem_cons.1 hr with rfl | hmem
    · rw [List.filter_cons]
      simp only [decide_eq_true_eq, eq_self_iff_true, if_true]
      have : List.filter (fun x => decide (key x = key r)) l = [] := by
        rw [List.filter_eq_nil_iff]
        intro x hx
        simp only [decide_eq_true_eq]
        intro hxk
        exact (ha x hx) hxk.symm
      rw [this]
    · rw [List.filter_cons]
      have hak : ¬ key a = key r := fun hk => (ha r hmem) hk
      simp only [decide_eq_true_eq, hak, if_false]
      exact ih hl hmem

theorem batchFold_preserves {α κ : Type} [DecidableEq κ] (key : α → κ) :
    ∀ (batch table : List α),
      (keysUnique key table →
        keysUnique key (batch.foldl (insertOrIgnore key) table)) ∧
      (∀ k r, rowsWithKey key k table = [r] →
        rowsWithKey key k (batch.foldl (insertOrIgnore key) table) = [r]) := by
  intro batch
  induction batch with
  | nil => exact fun table => ⟨fun h => h, fun _ _ h => h⟩
  | cons b bs ih =>
    intro table
    constructor
    · intro hU
      exact (ih (insertOrIgnore key table b)).1 (keysUnique_insertOrIgnore key table b hU)
    · intro k r h
      exact (ih (insertOrIgnore key table b)).2 k r
        (rowsWithKey_insertOrIgnore key k table b r h)

theorem batchesFold_preserves {α κ : Type} [DecidableEq κ] (key : α → κ) :
    ∀ (batches : List (List α)) (table : List α),
      (keysUnique key table →
        keysUnique key (batches.foldl (fun t b => b.foldl (insertOrIgnore key) t) table)) ∧
      (∀ k r, rowsWithKey key k table = [r] →
        rowsWithKey key k
          (batches.foldl (fun t b => b.foldl (insertOrIgnore key) t) table) = [r]) := by
  intro batches
  induction batches with
  | nil => exact fun table => ⟨fun h => h, fun _ _ h => h⟩
  | cons b bs ih =>
    intro table
    constructor
    · intro hU
      exact (ih (b.foldl (insertOrIgnore key) table)).1 ((batchFold_preserves key b table).1 hU)
    · intro k r h
      exact (ih (b.foldl (insertOrIgnore key) table)).2 k r
        ((batchFold_preserves key b table).2 k r h)

/-- Claim C5: saveTradeData and saveLiquidationEvents are idempotent on
their conflict keys. Starting from key-unique tables, after any sequence
of batches the tables are still key-unique, and any row present after a
prefix of the batches (in particular an originally inserted row) is still
the unique row for its key after the remaining batches, with all field
values unchanged. -/
theorem bulkInsert_idempotent
    (tradeTable : List TradeDataRow) (tradeBatches : List (List TradeDataRow))
    (liqTable : List LiquidationEventRow)
    (liqBatches : List (List LiquidationEventRow))
    (hT : keysUnique tradeKey tradeTable)
    (hL : keysUnique LiquidationEventRow.eventId liqTable) :
    (keysUnique tradeKey (tradeBatches.foldl saveTradeData tradeTable) ∧
      ∀ bs1 bs2, tradeBatches = bs1 ++ bs2 →
        ∀ r ∈ bs1.foldl saveTradeData tradeTable,
          rowsWithKey tradeKey (tradeKey r)
            (tradeBatches.foldl saveTradeData tradeTable) = [r]) ∧
    (keysUnique LiquidationEventRow.eventId
        (liqBatches.foldl saveLiquidationEvents liqTable) ∧
      ∀ bs1 bs2, liqBatches = bs1 ++ bs2 →
        ∀ r ∈ bs1.foldl saveLiquidationEvents liqTable,
          rowsWithKey LiquidationEventRow.eventId r.eventId
            (liqBatches.foldl saveLiquidationEvents liqTable) = [r]) := by
  have hTfold : ∀ (bs : List (List TradeDataRow)) (t : List TradeDataRow),
      bs.foldl saveTradeData t =
        bs.foldl (fun t b => b.foldl (insertOrIgnore tradeKey) t) t := by
    intro bs
    induction bs with
    | nil => intro t; rfl
    | cons b bs ih => intro t; exact ih (saveTradeData t b)
  have hLfold : ∀ (bs : List (List LiquidationEventRow)) (t : List LiquidationEventRow),
      bs.foldl saveLiquidationEvents t =
        bs.foldl (fun t b => b.foldl (insertOrIgnore LiquidationEventRow.eventId) t) t := by
    intro bs
    induction bs with
    | nil => intro t; rfl
    | cons b bs ih => intro t; exact ih (saveLiquidationEvents t b)
  constructor
  · constructor
    · rw [hTfold]
      exact (batchesFold_preserves tradeKey tradeBatches tradeTable).1 hT
    · intro bs1 bs2 hsplit r hr
      have hUmid : keysUnique tradeKey (bs1.foldl saveTradeData tradeTable) := by
        rw [hTfold]
        exact (batchesFold_preserves tradeKey bs1 tradeTable).1 hT
      have hmid := rowsWithKey_of_mem tradeKey _ r hUmid hr
      rw [hsplit, List.foldl_append, hTfold bs2]
      exact (batchesFold_preserves tradeKey bs2 _).2 _ r hmid
  · constructor
    · rw [hLfold]
      exact (batchesFold_preserves LiquidationEventRow.eventId liqBatches liqTable).1 hL
    · intro bs1 bs2 hsplit r hr
      have hUmid : keysUnique LiquidationEventRow.eventId
          (bs1.foldl saveLiquidationEvents liqTable) := by
        rw [hLfold]
        exact (batchesFold_preserves LiquidationEventRow.eventId bs1 liqTable).1 hL
      have hmid := rowsWithKey_of_mem LiquidationEventRow.eventId _ r hUmid hr
      rw [hsplit, List.foldl_append, hLfold bs2]
      exact (batchesFold_preserves LiquidationEventRow.eventId bs2 _).2 _ r hmid

/-- Claim C5 witness: the idempotence theorem applied to singleton
tables and duplicate-key batches. -/
theorem bulkInsert_idempotent_witness :
    keysUnique tradeKey [tradeRowEx] ∧
    keysUnique LiquidationEventRow.eventId [liqRowEx] ∧
    ((keysUnique tradeKey ([[tradeRowExDup]].foldl saveTradeData [tradeRowEx]) ∧
      ∀ bs1 bs2, [[tradeRowExDup]] = bs1 ++ bs2 →
        ∀ r ∈ bs1.foldl saveTradeData [tradeRowEx],
          rowsWithKey tradeKey (tradeKey r)
            ([[tradeRowExDup]].foldl saveTradeData [tradeRowEx]) = [r]) ∧
    (keysUnique LiquidationEventRow.eventId
        ([[liqRowExDup]].foldl saveLiquidationEvents [liqRowEx]) ∧
      ∀ bs1 bs2, [[liqRowExDup]] = bs1 ++ bs2 →
        ∀ r ∈ bs1.foldl saveLiquidationEvents [liqRowEx],
          rowsWithKey LiquidationEventRow.eventId r.eventId
            ([[liqRowExDup]].foldl saveLiquidationEvents [liqRowEx]) = [r])) :=
  ⟨by unfold keysUnique; decide, by unfold keysUnique; decide,
    bulkInsert_idempotent [tradeRowEx] [[tradeRowExDup]] [liqRowEx]
      [[liqRowExDup]] (by unfold keysUnique; decide)
      (by unfold keysUnique; decide)⟩

theorem flushTradeBuffer_conservation (db buf arrivals : List TradeDataRow)
    (ok : Bool) :
    (flushTradeBuffer db buf arrivals ok).db ++
      (flushTradeBuffer db buf arrivals ok).buffer = db ++ buf ++ arrivals := by
  unfold flushTradeBuffer
  split
  · rename_i h
    rw [List.isEmpty_eq_true] at h
    subst h
    simp
  · split <;> simp [List.append_assoc]

theorem runFlushes_conservation (rounds : List (List TradeDataRow × Bool)) :
    ∀ db buf, (runFlushes db buf rounds).db ++ (runFlushes db buf rounds).buffer =
      db ++ buf ++ (rounds.map Prod.fst).flatten := by
  induction rounds with
  | nil => intro db buf; simp [runFlushes]
  | cons round rest ih =>
    intro db buf
    rcases round with ⟨arrivals, ok⟩
    show (runFlushes _ _ rest).db ++ (runFlushes _ _ rest).buffer = _
    rw [ih]
    have h1 := flushTradeBuffer_conservation db buf arrivals ok
    simp only [List.map_cons, List.flatten_cons]
    calc (flushTradeBuffer db buf arrivals ok).db ++
          (flushTradeBuffer db buf arrivals ok).buffer ++
          (List.map Prod.fst rest).flatten
        = db ++ buf ++ arrivals ++ (List.map Prod.fst rest).flatten := by rw [h1]
      _ = db ++ buf ++ (arrivals ++ (List.map Prod.fst rest).flatten) := by
          simp [List.append_assoc]

/-- Claim C8: on a failed bulk insert the whole batch is unshifted back in
front of the trades that arrived during the flush (so the next flush
retries the same events first); on success the batch is removed and a
saved-count event equal to the batch size is emitted; and across any
sequence of flush rounds the concatenation of persisted rows and buffered
rows equals the original state followed by all arrivals in order. -/
theorem flushTradeBuffer_requeue_and_order
    (db buf arrivals : List TradeDataRow) (hne : buf ≠ [])
    (rounds : List (List TradeDataRow × Bool)) :
    flushTradeBuffer db buf arrivals false = ⟨db, buf ++ arrivals, [], 1⟩ ∧
    flushTradeBuffer db buf arrivals true =
      ⟨db ++ buf, arrivals, [buf.length], 0⟩ ∧
    (runFlushes db buf rounds).db ++ (runFlushes db buf rounds).buffer =
      db ++ buf ++ (rounds.map Prod.fst).flatten := by
  refine ⟨?_, ?_, runFlushes_conservation rounds db buf⟩
  · unfold flushTradeBuffer
    rw [if_neg (by simpa [List.isEmpty_eq_true] using hne)]
    rfl
  · unfold flushTradeBuffer
    rw [if_neg (by simpa [List.isEmpty_eq_true] using hne)]
    rfl

/-- Claim C8 witness: the requeue theorem at a one-trade buffer with one
trade arriving during a failing flush. -/
theorem flushTradeBuffer_requeue_and_order_witness :
    [tradeRowEx] ≠ ([] : List TradeDataRow) ∧
    (flushTradeBuffer [] [tradeRowEx] [tradeRowExDup] false =
      ⟨[], [tradeRowEx, tradeRowExDup], [], 1⟩ ∧
    flushTradeBuffer [] [tradeRowEx] [tradeRowExDup] true =
      ⟨[tradeRowEx], [tradeRowExDup], [1], 0⟩ ∧
    (runFlushes [] [tradeRowEx] [([tradeRowExDup], false)]).db ++
        (runFlushes [] [tradeRowEx] [([tradeRowExDup], false)]).buffer =
      [] ++ [tradeRowEx] ++ ([([tradeRowExDup], false)].map Prod.fst).flatten) :=
  ⟨by decide,
    flushTradeBuffer_requeue_and_order [] [tradeRowEx] [tradeRowExDup]
      (by decide) [([tradeRowExDup], false)]⟩

/-- Claim C10: handleMessage emits a trade exactly when the event type is
aggTrade or trade, the symbol is present, and price, quantity, and
timestamp all convert to finite numbers; and when all trade-id fields of
the event type are absent the emitted trade carries the synthesized
symbol-timestamp trade id rather than being dropped. -/
theorem handleMessage_drop_and_synthesized_id (marketType : String)
    (msg : WsTradeMessage) :
    ((handleMessage marketType msg).isSome ↔
      ((msg.e = some "aggTrade" ∨ msg.e = some "trade") ∧ msg.s ≠ none ∧
        jsNumIsFinite (toNumber (msg.p <|> msg.price)) = true ∧
        jsNumIsFinite (toNumber (msg.q <|> msg.quantity)) = true ∧
        jsNumIsFinite (toNumber (msg.bigT <|> msg.bigE <|> msg.eventTime)) = true)) ∧
    (∀ symbol n, msg.s = some symbol →
      toNumber (msg.bigT <|> msg.bigE <|> msg.eventTime) = JsNum.val n →
      ((msg.e = some "aggTrade" ∧ msg.a = none ∧ msg.bigA = none) ∨
        (msg.e = some "trade" ∧ msg.t = none ∧ msg.bigT = none ∧
          msg.a = none ∧ msg.bigA = none)) →
      jsNumIsFinite (toNumber (msg.p <|> msg.price)) = true →
      jsNumIsFinite (toNumber (msg.q <|> msg.quantity)) = true →
      ∃ td, handleMessage marketType msg = some td ∧
        td.tradeId = symbol ++ "-" ++ toString n) := by
  constructor
  · cases he : msg.e with
    | none => simp [handleMessage, he]
    | some et =>
      by_cases het : et = "aggTrade" ∨ et = "trade"
      · cases hs : msg.s with
        | none => simp [handleMessage, he, het, hs]
        | some sym =>
          cases hp : toNumber (msg.p <|> msg.price) with
          | nonFinite =>
            simp [handleMessage, he, het, hs, hp, jsNumIsFinite]
          | val pv =>
            cases hq : toNumber (msg.q <|> msg.quantity) with
            | nonFinite =>
              simp [handleMessage, he, het, hs, hp, hq, jsNumIsFinite]
            | val qv =>
              cases ht : toNumber (msg.bigT <|> msg.bigE <|> msg.eventTime) with
              | nonFinite =>
                simp [handleMessage, he, het, hs, hp, hq, ht, jsNumIsFinite]
              | val tv =>
                simp [handleMessage, he, het, hs, hp, hq, ht, jsNumIsFinite]
      · simp [handleMessage, he, het]
  · intro symbol n hs ht hid hp hq
    cases hpv : toNumber (msg.p <|> msg.price) with
    | nonFinite => rw [hpv] at hp; simp [jsNumIsFinite] at hp
    | val pv =>
      cases hqv : toNumber (msg.q <|> msg.quantity) with
      | nonFinite => rw [hqv] at hq; simp [jsNumIsFinite] at hq
      | val qv =>
        rcases hid with ⟨he, ha, hA⟩ | ⟨he, hti, hT, ha, hA⟩
        · have hEq : handleMessage marketType msg =
              some { symbol := symbol, marketType := marketType,
                     streamType := "aggTrade",
                     tradeId := symbol ++ "-" ++ toString n,
                     price := pv, amount := qv, timestamp := n,
                     direction := if msg.m then "sell" else "buy" } := by
            simp [handleMessage, he, hs, ha, hA, hpv, hqv, ht, jsNumToString]
          exact ⟨_, hEq, rfl⟩
        · have ht2 : toNumber (msg.bigE <|> msg.eventTime) = JsNum.val n := by
            rw [hT] at ht
            simpa using ht
          have hEq : handleMessage marketType msg =
              some { symbol := symbol, marketType := marketType,
                     streamType := "trade",
                     tradeId := symbol ++ "-" ++ toString n,
                     price := pv, amount := qv, timestamp := n,
                     direction := if msg.m then "sell" else "buy" } := by
            simp [handleMessage, he, hs, hti, hT, ha, hA, hpv, hqv, ht2,
              jsNumToString]
          exact ⟨_, hEq, rfl⟩

/-- Claim C10 witness: the characterization applied to a concrete
aggTrade message whose id fields are absent yields the synthesized
symbol-timestamp trade id. -/
theorem handleMessage_drop_and_synthesized_id_witness :
    wsMsgEx.s = some "BTCUSDT" ∧
    toNumber (wsMsgEx.bigT <|> wsMsgEx.bigE <|> wsMsgEx.eventTime) =
      JsNum.val 1700 ∧
    (wsMsgEx.e = some "aggTrade" ∧ wsMsgEx.a = none ∧ wsMsgEx.bigA = none) ∧
    jsNumIsFinite (toNumber (wsMsgEx.p <|> wsMsgEx.price)) = true ∧
    jsNumIsFinite (toNumber (wsMsgEx.q <|> wsMsgEx.quantity)) = true ∧
    (∃ td, handleMessage "SPOT" wsMsgEx = some td ∧
      td.tradeId = "BTCUSDT" ++ "-" ++ toString (1700 : Int)) :=
  ⟨rfl, rfl, ⟨rfl, rfl, rfl⟩, rfl, rfl,
    (handleMessage_drop_and_synthesized_id "SPOT" wsMsgEx).2 "BTCUSDT" 1700
      rfl rfl (Or.inl ⟨rfl, rfl, rfl⟩) rfl rfl⟩

theorem cycleStep_of_processed (m : Nat) (e : AlertEntry) (out : SinkOutcome)
    (h : e.processed = true) : cycleStep m e out = (e, false, false) := by
  simp [cycleStep, h]

theorem runCycles_of_processed (m : Nat) (e : AlertEntry)
    (h : e.processed = true) :
    ∀ os, runCycles m e os = ⟨e, 0, false⟩ := by
  intro os
  induction os with
  | nil => rfl
  | cons out rest ih =>
    simp [runCycles, cycleStep_of_processed m e out h, ih]

theorem cycleStep_attemptCount (m : Nat) (e : AlertEntry) (out : SinkOutcome) :
    (cycleStep m e out).1.attemptCount =
      e.attemptCount + (if (cycleStep m e out).2.1 then 1 else 0) := by
  unfold cycleStep
  split
  · simp
  · split
    · simp [markAlertProcessed, markAlertFailure]
    · cases out with
      | success => simp [markAlertProcessed, markAlertAttempt]
      | failure msg =>
        simp only
        split <;>
          simp [markAlertProcessed, markAlertFailure, markAlertAttempt]

theorem runCycles_attemptCount (m : Nat) :
    ∀ (os : List SinkOutcome) (e : AlertEntry),
      (runCycles m e os).entry.attemptCount =
        e.attemptCount + (runCycles m e os).invocations := by
  intro os
  induction os with
  | nil => intro e; rfl
  | cons out rest ih =>
    intro e
    simp only [runCycles]
    rw [ih (cycleStep m e out).1, cycleStep_attemptCount]
    cases hb : (cycleStep m e out).2.1
    · simp [hb]
    · simp [hb]
      omega

theorem cycleStep_inv (m : Nat) (e : AlertEntry) (out : SinkOutcome)
    (h1 : e.processed = false → e.attemptCount < m) (h2 : e.attemptCount ≤ m) :
    ((cycleStep m e out).1.processed = false →
      (cycleStep m e out).1.attemptCount < m) ∧
    (cycleStep m e out).1.attemptCount ≤ m := by
  unfold cycleStep
  split
  · exact ⟨h1, h2⟩
  · rename_i hproc
    have hpf : e.processed = false := by
      cases hb : e.processed
      · rfl
      · exact absurd hb hproc
    have hlt : e.attemptCount < m := h1 hpf
    split
    · rename_i hge
      omega
    · cases out with
      | success =>
        constructor
        · intro hcon
          simp [markAlertProcessed, markAlertAttempt] at hcon
        · simp [markAlertProcessed, markAlertAttempt]
          omega
      | failure msg =>
        simp only
        split
        · constructor
          · intro hcon
            simp [markAlertProcessed, markAlertFailure, markAlertAttempt] at hcon
          · simp [markAlertProcessed, markAlertFailure, markAlertAttempt]
            omega
        · rename_i hlt2
          constructor
          · intro _
            simp [markAlertFailure, markAlertAttempt]
            omega
          · simp [markAlertFailure, markAlertAttempt]
            omega

theorem runCycles_inv (m : Nat) :
    ∀ (os : List SinkOutcome) (e : AlertEntry),
      (e.processed = false → e.attemptCount < m) → e.attemptCount ≤ m →
      ((runCycles m e os).entry.processed = false →
        (runCycles m e os).entry.attemptCount < m) ∧
      (runCycles m e os).entry.attemptCount ≤ m := by
  intro os
  induction os with
  | nil => intro e h1 h2; exact ⟨h1, h2⟩
  | cons out rest ih =>
    intro e h1 h2
    have hstep := cycleStep_inv m e out h1 h2
    simp only [runCycles]
    exact ih (cycleStep m e out).1 hstep.1 hstep.2

theorem runCycles_append (m : Nat) :
    ∀ (os1 os2 : List SinkOutcome) (e : AlertEntry),
      (runCycles m e (os1 ++ os2)).entry =
        (runCycles m (runCycles m e os1).entry os2).entry ∧
      (runCycles m e (os1 ++ os2)).invocations =
        (runCycles m e os1).invocations +
          (runCycles m (runCycles m e os1).entry os2).invocations ∧
      (runCycles m e (os1 ++ os2)).succeeded =
        ((runCycles m e os1).succeeded ||
          (runCycles m (runCycles m e os1).entry os2).succeeded) := by
  intro os1
  induction os1 with
  | nil =>
    intro os2 e
    exact ⟨rfl, (Nat.zero_add _).symm, (Bool.false_or _).symm⟩
  | cons out rest ih =>
    intro os2 e
    simp only [List.cons_append, runCycles, List.append_eq]
    rcases ih os2 (cycleStep m e out).1 with ⟨ha, hb, hc⟩
    refine ⟨ha, ?_, ?_⟩
    · rw [hb]
      omega
    · rw [hc]
      cases (cycleStep m e out).2.2 <;> simp

theorem runCycles_success_iff (m : Nat) :
    ∀ (os : List SinkOutcome) (e : AlertEntry), e.processed = false →
      (((runCycles m e os).entry.processed = true ∧
          (runCycles m e os).entry.lastError = none) ↔
        (runCycles m e os).succeeded = true) := by
  intro os
  induction os with
  | nil =>
    intro e he
    simp [runCycles, he]
  | cons out rest ih =>
    intro e he
    simp only [runCycles]
    by_cases hge : m ≤ e.attemptCount
    · have hstep : cycleStep m e out =
          (markAlertProcessed false (markAlertFailure "Retry limit reached" e),
            false, false) := by
        simp [cycleStep, he, hge]
      rw [hstep]
      rw [runCycles_of_processed m _ (by simp [markAlertProcessed]) rest]
      simp [markAlertProcessed, markAlertFailure]
    · cases out with
      | success =>
        have hstep : cycleStep m e SinkOutcome.success =
            (markAlertProcessed true (markAlertAttempt e), true, true) := by
          simp [cycleStep, he, hge]
        rw [hstep]
        rw [runCycles_of_processed m _ (by simp [markAlertProcessed]) rest]
        simp [markAlertProcessed, markAlertAttempt]
      | failure msg =>
        by_cases hge2 : m ≤ e.attemptCount + 1
        · have hstep : cycleStep m e (SinkOutcome.failure msg) =
              (markAlertProcessed false
                (markAlertFailure msg (markAlertAttempt e)), true, false) := by
            simp [cycleStep, he, hge, hge2]
          rw [hstep]
          rw [runCycles_of_processed m _ (by simp [markAlertProcessed]) rest]
          simp [markAlertProcessed, markAlertFailure, markAlertAttempt]
        · have hstep : cycleStep m e (SinkOutcome.failure msg) =
              (markAlertFailure msg (markAlertAttempt e), true, false) := by
            simp [cycleStep, he, hge, hge2]
          rw [hstep]
          have := ih (markAlertFailure msg (markAlertAttempt e))
            (by simp [markAlertFailure, markAlertAttempt, he])
          simpa using this

/-- Claim C3: for a freshly enqueued alert entry processed by
AlertQueueProcessor cycles, the sink is invoked at most maxAttempts
times, attemptCount equals the number of invocations (and is monotone
over cycle prefixes), the final state is processed-with-null-lastError
exactly when some sink invocation succeeded, and an entry that exhausts
maxAttempts without success ends processed with its last error message
preserved. -/
theorem alertQueue_lifecycle (m : Nat) (hm : 1 ≤ m)
    (outcomes : List SinkOutcome) :
    (runCycles m freshAlertEntry outcomes).invocations ≤ m ∧
    (runCycles m freshAlertEntry outcomes).entry.attemptCount =
      (runCycles m freshAlertEntry outcomes).invocations ∧
    (∀ pre post, outcomes = pre ++ post →
      (runCycles m freshAlertEntry pre).entry.attemptCount ≤
        (runCycles m freshAlertEntry outcomes).entry.attemptCount) ∧
    (((runCycles m freshAlertEntry outcomes).entry.processed = true ∧
        (runCycles m freshAlertEntry outcomes).entry.lastError = none) ↔
      (runCycles m freshAlertEntry outcomes).succeeded = true) ∧
    ((runCycles m freshAlertEntry outcomes).entry.attemptCount = m ∧
        (runCycles m freshAlertEntry outcomes).succeeded = false →
      (runCycles m freshAlertEntry outcomes).entry.processed = true ∧
        ∃ msg, (runCycles m freshAlertEntry outcomes).entry.lastError = some msg) := by
  have hfresh1 : freshAlertEntry.processed = false := rfl
  have hfresh2 : freshAlertEntry.attemptCount = 0 := rfl
  have hcount := runCycles_attemptCount m outcomes freshAlertEntry
  have hinv := runCycles_inv m outcomes freshAlertEntry
    (fun _ => by omega) (by omega)
  have hiff := runCycles_success_iff m outcomes freshAlertEntry hfresh1
  refine ⟨?_, ?_, ?_, hiff, ?_⟩
  · omega
  · omega
  · intro pre post hsplit
    subst hsplit
    rcases runCycles_append m pre post freshAlertEntry with ⟨ha, _, _⟩
    rw [ha, runCycles_attemptCount m post]
    omega
  · intro ⟨hcm, hsucc⟩
    have hproc : (runCycles m freshAlertEntry outcomes).entry.processed = true := by
      cases hb : (runCycles m freshAlertEntry outcomes).entry.processed
      · exact absurd hcm (by have := hinv.1 hb; omega)
      · rfl
    refine ⟨hproc, ?_⟩
    cases herr : (runCycles m freshAlertEntry outcomes).entry.lastError with
    | none => exact absurd (hiff.1 ⟨hproc, herr⟩) (by simp [hsucc])
    | some msg => exact ⟨msg, rfl⟩

/-- Claim C3 witness: two cycles with a failing then succeeding sink at
maxAttempts 3. -/
theorem alertQueue_lifecycle_witness :
    1 ≤ 3 ∧
    ((runCycles 3 freshAlertEntry
        [SinkOutcome.failure "boom", SinkOutcome.success]).invocations ≤ 3 ∧
      (runCycles 3 freshAlertEntry
        [SinkOutcome.failure "boom", SinkOutcome.success]).entry.attemptCount =
        (runCycles 3 freshAlertEntry
          [SinkOutcome.failure "boom", SinkOutcome.success]).invocations ∧
      (∀ pre post,
        [SinkOutcome.failure "boom", SinkOutcome.success] = pre ++ post →
        (runCycles 3 freshAlertEntry pre).entry.attemptCount ≤
          (runCycles 3 freshAlertEntry
            [SinkOutcome.failure "boom", SinkOutcome.success]).entry.attemptCount) ∧
      (((runCycles 3 freshAlertEntry
          [SinkOutcome.failure "boom", SinkOutcome.success]).entry.processed = true ∧
          (runCycles 3 freshAlertEntry
            [SinkOutcome.failure "boom", SinkOutcome.success]).entry.lastError = none) ↔
        (runCycles 3 freshAlertEntry
          [SinkOutcome.failure "boom", SinkOutcome.success]).succeeded = true) ∧
      ((runCycles 3 freshAlertEntry
          [SinkOutcome.failure "boom", SinkOutcome.success]).entry.attemptCount = 3 ∧
          (runCycles 3 freshAlertEntry
            [SinkOutcome.failure "boom", SinkOutcome.success]).succeeded = false →
        (runCycles 3 freshAlertEntry
          [SinkOutcome.failure "boom", SinkOutcome.success]).entry.processed = true ∧
          ∃ msg, (runCycles 3 freshAlertEntry
            [SinkOutcome.failure "boom", SinkOutcome.success]).entry.lastError =
              some msg)) :=
  ⟨by decide,
    alertQueue_lifecycle 3 (by decide)
      [SinkOutcome.failure "boom", SinkOutcome.success]⟩

theorem fetchPages_ne_nil (fetchPage : Int → List AggTrade) (restLimit : Nat) :
    ∀ (fuel : Nat) (cursor : Int), 0 < fuel →
      fetchPages fetchPage restLimit fuel cursor ≠ [] := by
  intro fuel cursor hf
  cases fuel with
  | zero => omega
  | succ n =>
    rw [fetchPages.eq_def]
    simp only
    split
    · simp
    · split <;> simp

theorem fetchPages_head (fetchPage : Int → List AggTrade) (restLimit : Nat) :
    ∀ (fuel : Nat) (cursor : Int), 0 < fuel →
      (fetchPages fetchPage restLimit fuel cursor).head? =
        some (cursor, fetchPage cursor) := by
  intro fuel cursor hf
  cases fuel with
  | zero => omega
  | succ n =>
    rw [fetchPages.eq_def]
    simp only
    split
    · rfl
    · split <;> rfl

theorem fetchPages_length (fetchPage : Int → List AggTrade) (restLimit : Nat) :
    ∀ (fuel : Nat) (cursor : Int),
      (fetchPages fetchPage restLimit fuel cursor).length ≤ fuel := by
  intro fuel
  induction fuel with
  | zero => intro cursor; simp [fetchPages]
  | succ n ih =>
    intro cursor
    rw [fetchPages.eq_def]
    simp only
    split
    · simp
    · rename_i lastTrade hlast
      split
      · simp
      · simp only [List.length_cons]
        have := ih (lastTrade.tradeTime + 1)
        omega

theorem fetchPages_chain (fetchPage : Int → List AggTrade) (restLimit : Nat) :
    ∀ (fuel : Nat) (cursor : Int),
      List.Chain' (fun a b : Int × List AggTrade =>
        ∃ lastTrade, a.2.getLast? = some lastTrade ∧
          b.1 = lastTrade.tradeTime + 1)
        (fetchPages fetchPage restLimit fuel cursor) := by
  intro fuel
  induction fuel with
  | zero => intro cursor; simp [fetchPages]
  | succ n ih =>
    intro cursor
    rw [fetchPages.eq_def]
    simp only
    split
    · simp
    · rename_i lastTrade hlast
      split
      · simp
      · rw [List.chain'_cons']
        refine ⟨?_, ih (lastTrade.tradeTime + 1)⟩
        intro b hb
        cases n with
        | zero => simp [fetchPages] at hb
        | succ k =>
          rw [fetchPages_head fetchPage restLimit (k + 1) _ (by omega)] at hb
          rw [Option.mem_def, Option.some_inj] at hb
          subst hb
          exact ⟨lastTrade, hlast, rfl⟩

theorem fetchPages_last_short (fetchPage : Int → List AggTrade)
    (restLimit : Nat) (hlim : 0 < restLimit) :
    ∀ (fuel : Nat) (cursor : Int),
      (fetchPages fetchPage restLimit fuel cursor).length < fuel →
      ∃ le, (fetchPages fetchPage restLimit fuel cursor).getLast? = some le ∧
        le.2.length < restLimit := by
  intro fuel
  induction fuel with
  | zero => intro cursor h; omega
  | succ n ih =>
    intro cursor h
    revert h
    rw [fetchPages.eq_def]
    simp only
    split
    · rename_i hlast
      intro _
      refine ⟨_, rfl, ?_⟩
      have : fetchPage cursor = [] := by
        simpa using congrArg Option.isNone hlast
      simp [this, hlim]
    · rename_i lastTrade hlast
      split
      · rename_i hshort
        intro _
        exact ⟨_, rfl, hshort⟩
      · intro h
        simp only [List.length_cons] at h
        have hrec : (fetchPages fetchPage restLimit n (lastTrade.tradeTime + 1)).length < n := by
          omega
        have hne : fetchPages fetchPage restLimit n (lastTrade.tradeTime + 1) ≠ [] := by
          apply fetchPages_ne_nil
          omega
        rcases ih (lastTrade.tradeTime + 1) hrec with ⟨le, hle, hshort⟩
        refine ⟨le, ?_, hshort⟩
        rcases List.exists_cons_of_ne_nil hne with ⟨y, ys, hys⟩
        rw [hys] at hle ⊢
        rw [List.getLast?_cons_cons]
        exact hle

/-- Claim C6: the fetch cycle of a target starts at
checkpoint.tradeTime + 1 (or now minus the initial lookback without a
checkpoint), raised on scheduled cycles to at least now minus the fetch
interval; the page loop runs at most 50 iterations, each successor cursor
is the last tradeTime of the previous page plus 1, and a loop that ends under
budget ends on a page shorter than restLimit (in particular on an empty
page). -/
theorem historicalFetch_cycle (checkpoint : Option Int)
    (now initialLookbackMs fetchIntervalMs : Int) (scheduled : Bool)
    (fetchPage : Int → List AggTrade) (restLimit : Nat)
    (hlim : 0 < restLimit) :
    (performFetchTarget checkpoint now initialLookbackMs fetchIntervalMs
        scheduled fetchPage restLimit).head?.map Prod.fst =
      some (startCursor checkpoint now initialLookbackMs fetchIntervalMs
        scheduled) ∧
    (∀ ct, checkpoint = some ct → scheduled = false →
      startCursor checkpoint now initialLookbackMs fetchIntervalMs scheduled =
        ct + 1) ∧
    (checkpoint = none → scheduled = false →
      startCursor checkpoint now initialLookbackMs fetchIntervalMs scheduled =
        now - initialLookbackMs) ∧
    (∀ ct, checkpoint = some ct → scheduled = true →
      startCursor checkpoint now initialLookbackMs fetchIntervalMs scheduled =
        max (ct + 1) (now - fetchIntervalMs)) ∧
    (checkpoint = none → scheduled = true →
      startCursor checkpoint now initialLookbackMs fetchIntervalMs scheduled =
        max (now - initialLookbackMs) (now - fetchIntervalMs)) ∧
    (performFetchTarget checkpoint now initialLookbackMs fetchIntervalMs
        scheduled fetchPage restLimit).length ≤ maxRestIterations ∧
    List.Chain' (fun a b : Int × List AggTrade =>
        ∃ lastTrade, a.2.getLast? = some lastTrade ∧
          b.1 = lastTrade.tradeTime + 1)
      (performFetchTarget checkpoint now initialLookbackMs fetchIntervalMs
        scheduled fetchPage restLimit) ∧
    ((performFetchTarget checkpoint now initialLookbackMs fetchIntervalMs
          scheduled fetchPage restLimit).length < maxRestIterations →
      ∃ le, (performFetchTarget checkpoint now initialLookbackMs
          fetchIntervalMs scheduled fetchPage restLimit).getLast? = some le ∧
        le.2.length < restLimit) := by
  refine ⟨?_, ?_, ?_, ?_, ?_, ?_, ?_, ?_⟩
  · rw [performFetchTarget,
      fetchPages_head fetchPage restLimit maxRestIterations _ (by decide)]
    rfl
  · intro ct hc hsch
    simp [startCursor, hc, hsch]
  · intro hc hsch
    simp [startCursor, hc, hsch]
  · intro ct hc hsch
    simp [startCursor, hc, hsch]
  · intro hc hsch
    simp [startCursor, hc, hsch]
  · exact fetchPages_length fetchPage restLimit maxRestIterations _
  · exact fetchPages_chain fetchPage restLimit maxRestIterations _
  · exact fetchPages_last_short fetchPage restLimit hlim maxRestIterations _

/-- Claim C6 witness: the cycle theorem at a two-page concrete endpoint
with page limit 2 and a checkpoint at trade time 9. -/
theorem historicalFetch_cycle_witness :
    0 < 2 ∧
    ((performFetchTarget (some 9) 100 50 30 false
        (fun c => if c = 10 then
          [{ aggregateId := 1, price := 5, quantity := 1, firstTradeId := 1,
             lastTradeId := 1, tradeTime := 12, isBuyerMaker := false },
           { aggregateId := 2, price := 6, quantity := 1, firstTradeId := 2,
             lastTradeId := 2, tradeTime := 15, isBuyerMaker := true }]
          else if c = 16 then
          [{ aggregateId := 3, price := 7, quantity := 1, firstTradeId := 3,
             lastTradeId := 3, tradeTime := 17, isBuyerMaker := false }]
          else []) 2).head?.map Prod.fst = some (startCursor (some 9) 100 50 30 false)) :=
  ⟨by decide,
    (historicalFetch_cycle (some 9) 100 50 30 false _ 2 (by decide)).1⟩

theorem execStep_eq_some (s : EndpointState) (t w : Nat) (s1 : EndpointState)
    (h : execStep s t w = some s1) :
    w ≤ (refillTokens t s).tokens ∧
    s1 = { refillTokens t s with tokens := (refillTokens t s).tokens - w } := by
  unfold execStep at h
  simp only at h
  split at h
  · rename_i hguard
    exact ⟨hguard, (Option.some_inj.1 h).symm⟩
  · cases h

theorem refillTokens_spec (s : EndpointState) (now : Nat)
    (hI : 0 < s.refillIntervalMs) (hle : s.lastRefill ≤ now) :
    (refillTokens now s).capacity = s.capacity ∧
    (refillTokens now s).refillIntervalMs = s.refillIntervalMs ∧
    (refillTokens now s).lastRefill ≤ now ∧
    now < (refillTokens now s).lastRefill + s.refillIntervalMs ∧
    (s.tokens ≤ s.capacity → (refillTokens now s).tokens ≤ s.capacity) ∧
    ∃ j : Nat,
      (refillTokens now s).lastRefill = s.lastRefill + j * s.refillIntervalMs ∧
      (j = 0 → (refillTokens now s).tokens = s.tokens) := by
  unfold refillTokens
  split
  · rename_i hcond
    simp only
    have hdiv : s.refillIntervalMs * ((now - s.lastRefill) / s.refillIntervalMs) ≤
        now - s.lastRefill := by
      rw [Nat.mul_comm]
      exact Nat.div_mul_le_self _ _
    have hmod := Nat.div_add_mod (now - s.lastRefill) s.refillIntervalMs
    have hmlt : (now - s.lastRefill) % s.refillIntervalMs < s.refillIntervalMs :=
      Nat.mod_lt _ hI
    refine ⟨trivial, trivial, ?_, ?_, fun _ => inf_le_left,
      (now - s.lastRefill) / s.refillIntervalMs, by rw [Nat.mul_comm], ?_⟩
    · omega
    · omega
    · intro hj0
      rw [hj0] at hmod
      simp at hmod
      omega
  · rename_i hcond
    exact ⟨rfl, rfl, hle, by omega, fun h => h, 0, by simp, fun _ => rfl⟩

theorem chronologicalFrom_mono (a b : Nat) (hab : a ≤ b) :
    ∀ tr, chronologicalFrom b tr = true → chronologicalFrom a tr = true := by
  intro tr h
  cases tr with
  | nil => rfl
  | cons ev rest =>
    rcases ev with ⟨t, w⟩
    rw [chronologicalFrom, Bool.and_eq_true, decide_eq_true_eq] at h ⊢
    exact ⟨le_trans hab h.1, h.2⟩

theorem windowSum_cons (lo hi t w : Nat) (tr : List (Nat × Nat)) :
    windowSum lo hi ((t, w) :: tr) =
      (if lo ≤ t ∧ t < hi then w else 0) + windowSum lo hi tr := by
  simp only [windowSum, List.filter_cons, Bool.and_eq_true, decide_eq_true_eq]
  by_cases h : lo ≤ t ∧ t < hi
  · rw [if_pos h, if_pos h]
    simp
  · rw [if_neg h, if_neg h]
    simp

theorem windowSum_eq_zero_of_le (lo hi : Nat) :
    ∀ (tr : List (Nat × Nat)) (c : Nat), hi ≤ c →
      chronologicalFrom c tr = true → windowSum lo hi tr = 0 := by
  intro tr
  induction tr with
  | nil => intro c _ _; rfl
  | cons ev rest ih =>
    rcases ev with ⟨t, w⟩
    intro c hc hchron
    rw [chronologicalFrom, Bool.and_eq_true, decide_eq_true_eq] at hchron
    rcases hchron with ⟨hct, hrest⟩
    rw [windowSum_cons, ih t (by omega) hrest]
    have hno : ¬ (lo ≤ t ∧ t < hi) := by
      intro hcontra
      rcases hcontra with ⟨_, h2⟩
      omega
    rw [if_neg hno]

theorem runTrace_window_aux :
    ∀ (tr : List (Nat × Nat)) (s : EndpointState),
      0 < s.refillIntervalMs → s.tokens ≤ s.capacity →
      (runTrace s tr).isSome = true →
      chronologicalFrom s.lastRefill tr = true →
      windowSum s.lastRefill (s.lastRefill + s.refillIntervalMs) tr ≤ s.tokens ∧
      ∀ k : Nat,
        windowSum (s.lastRefill + (k + 1) * s.refillIntervalMs)
          (s.lastRefill + (k + 2) * s.refillIntervalMs) tr ≤ s.capacity := by
  intro tr
  induction tr with
  | nil =>
    intro s _ _ _ _
    exact ⟨by simp [windowSum], fun k => by simp [windowSum]⟩
  | cons ev rest ih =>
    rcases ev with ⟨t, w⟩
    intro s hI htok hrun hchron
    rw [chronologicalFrom, Bool.and_eq_true, decide_eq_true_eq] at hchron
    rcases hchron with ⟨hlt, hchront⟩
    rw [runTrace] at hrun
    cases hstep : execStep s t w with
    | none => rw [hstep] at hrun; cases hrun
    | some s1 =>
      rw [hstep] at hrun
      rcases execStep_eq_some s t w s1 hstep with ⟨hguard, hs1⟩
      rcases refillTokens_spec s t hI hlt with
        ⟨hcap, hint, hlr_le, hlr_lt, htok2, j, hlr_eq, hj0⟩
      have hs1cap : s1.capacity = s.capacity := by rw [hs1]; exact hcap
      have hs1int : s1.refillIntervalMs = s.refillIntervalMs := by
        rw [hs1]; exact hint
      have hs1lr : s1.lastRefill = s.lastRefill + j * s.refillIntervalMs := by
        rw [hs1]; exact hlr_eq
      have hs1tok : s1.tokens = (refillTokens t s).tokens - w := by rw [hs1]
      have hsT : (refillTokens t s).tokens ≤ s.capacity := htok2 htok
      have hs1tok_le : s1.tokens ≤ s1.capacity := by
        rw [hs1tok, hs1cap]; omega
      have hchron1 : chronologicalFrom s1.lastRefill rest = true := by
        refine chronologicalFrom_mono s1.lastRefill t ?_ rest hchront
        rw [hs1lr, ← hlr_eq]; exact hlr_le
      have hIH := ih s1 (by rw [hs1int]; exact hI) hs1tok_le hrun hchron1
      rcases hIH with ⟨W0, Wk⟩
      rw [hs1lr, hs1int, hs1tok] at W0
      have Wk2 : ∀ k : Nat,
          windowSum
            (s.lastRefill + j * s.refillIntervalMs + (k + 1) * s.refillIntervalMs)
            (s.lastRefill + j * s.refillIntervalMs + (k + 2) * s.refillIntervalMs)
            rest ≤ s.capacity := by
        intro k
        have hW := Wk k
        rw [hs1lr, hs1int, hs1cap] at hW
        exact hW
      have hlr_le2 : s.lastRefill + j * s.refillIntervalMs ≤ t := by
        rw [← hlr_eq]; exact hlr_le
      have hlr_lt2 :
          t < s.lastRefill + j * s.refillIntervalMs + s.refillIntervalMs := by
        rw [← hlr_eq]; exact hlr_lt
      constructor
      · rw [windowSum_cons]
        by_cases hj : j = 0
        · subst hj
          simp only [Nat.zero_mul, Nat.add_zero] at W0 hlr_le2 hlr_lt2
          rw [if_pos ⟨hlt, hlr_lt2⟩]
          have hTeq : (refillTokens t s).tokens = s.tokens := hj0 rfl
          rw [hTeq] at W0
          omega
        · have hj1 : 1 ≤ j := Nat.one_le_iff_ne_zero.2 hj
          have hIj : s.refillIntervalMs ≤ j * s.refillIntervalMs := by
            calc s.refillIntervalMs = 1 * s.refillIntervalMs :=
                  (Nat.one_mul _).symm
              _ ≤ j * s.refillIntervalMs := Nat.mul_le_mul_right _ hj1
          have hfar : s.lastRefill + s.refillIntervalMs ≤ t := by omega
          rw [if_neg (by
            intro hcontra
            rcases hcontra with ⟨_, h2⟩
            omega)]
          rw [windowSum_eq_zero_of_le _ _ rest t hfar hchront]
          omega
      · intro k
        rw [windowSum_cons]
        rcases Nat.lt_trichotomy (k + 1) j with hkj | hkj | hkj
        · have hk2 : k + 2 ≤ j := by omega
          have hmul : (k + 2) * s.refillIntervalMs ≤ j * s.refillIntervalMs :=
            Nat.mul_le_mul_right _ hk2
          have hhit : s.lastRefill + (k + 2) * s.refillIntervalMs ≤ t := by
            omega
          rw [if_neg (by
            intro hcontra
            rcases hcontra with ⟨_, h2⟩
            omega)]
          rw [windowSum_eq_zero_of_le _ _ rest t hhit hchront]
          omega
        · subst hkj
          have hsucc : (k + 2) * s.refillIntervalMs =
              (k + 1) * s.refillIntervalMs + s.refillIntervalMs := by ring
          have hhi : s.lastRefill + (k + 2) * s.refillIntervalMs =
              s.lastRefill + (k + 1) * s.refillIntervalMs +
                s.refillIntervalMs := by
            rw [hsucc, Nat.add_assoc]
          rw [hhi]
          rw [if_pos ⟨hlr_le2, hlr_lt2⟩]
          omega
        · obtain ⟨m, rfl⟩ : ∃ m, k = j + m := ⟨k - j, by omega⟩
          have e1 : (j + m + 1) * s.refillIntervalMs =
              j * s.refillIntervalMs + (m + 1) * s.refillIntervalMs := by ring
          have e2 : (j + m + 2) * s.refillIntervalMs =
              j * s.refillIntervalMs + (m + 2) * s.refillIntervalMs := by ring
          have hlo : s.lastRefill + (j + m + 1) * s.refillIntervalMs =
              s.lastRefill + j * s.refillIntervalMs +
                (m + 1) * s.refillIntervalMs := by
            rw [e1, Nat.add_assoc]
          have hhi : s.lastRefill + (j + m + 2) * s.refillIntervalMs =
              s.lastRefill + j * s.refillIntervalMs +
                (m + 2) * s.refillIntervalMs := by
            rw [e2, Nat.add_assoc]
          rw [hlo, hhi]
          have hIm : s.refillIntervalMs ≤ (m + 1) * s.refillIntervalMs := by
            calc s.refillIntervalMs = 1 * s.refillIntervalMs :=
                  (Nat.one_mul _).symm
              _ ≤ (m + 1) * s.refillIntervalMs :=
                  Nat.mul_le_mul_right _ (by omega)
          rw [if_neg (by
            intro hcontra
            rcases hcontra with ⟨h1, _⟩
            omega)]
          have hW := Wk2 m
          omega

/-- Claim C1 (amended): for every endpoint state with positive refill
interval and tokens within capacity, and every admissible chronological
trace of task starts, the sum of the weights started within any window
aligned to the refill schedule, [lastRefill + k * interval,
lastRefill + (k + 1) * interval), is at most the endpoint capacity. -/
theorem rateLimiter_refill_aligned_window (s : EndpointState)
    (tr : List (Nat × Nat)) (hI : 0 < s.refillIntervalMs)
    (htok : s.tokens ≤ s.capacity) (hrun : (runTrace s tr).isSome = true)
    (hchron : chronologicalFrom s.lastRefill tr = true) (k : Nat) :
    windowSum (s.lastRefill + k * s.refillIntervalMs)
      (s.lastRefill + (k + 1) * s.refillIntervalMs) tr ≤ s.capacity := by
  rcases runTrace_window_aux tr s hI htok hrun hchron with ⟨h0, hk⟩
  cases k with
  | zero =>
    have h1 : s.lastRefill + 0 * s.refillIntervalMs = s.lastRefill := by simp
    have h2 : s.lastRefill + (0 + 1) * s.refillIntervalMs =
        s.lastRefill + s.refillIntervalMs := by simp
    rw [h1, h2]
    exact le_trans h0 htok
  | succ n =>
    have hW := hk n
    have h2 : n + 2 = n + 1 + 1 := rfl
    rw [h2] at hW
    exact hW

/-- Claim C1 counterexample: with capacity 1 and a 1000 ms interval, a
weight-1 start at t = 900 and another at t = 1100 are both admitted (the
second after the t = 1000 refill), yet both fall inside the sliding
window [900, 1900) of one interval length, so the window weight sum is 2,
exceeding the capacity. -/
theorem rateLimiter_sliding_window_cex :
    (runTrace
        { capacity := 1, tokens := 1, refillIntervalMs := 1000, lastRefill := 0 }
        [(900, 1), (1100, 1)]).isSome = true ∧
    chronologicalFrom 0 [(900, 1), (1100, 1)] = true ∧
    windowSum 900 (900 + 1000) [(900, 1), (1100, 1)] = 2 ∧
    ¬ windowSum 900 (900 + 1000) [(900, 1), (1100, 1)] ≤
      ({ capacity := 1, tokens := 1, refillIntervalMs := 1000,
         lastRefill := 0 } : EndpointState).capacity := by
  refine ⟨by decide, by decide, by decide, by decide⟩

/-- Claim C1 witness: the aligned-window bound applied to a concrete
admissible trace spanning two refill epochs at capacity 2. -/
theorem rateLimiter_refill_aligned_window_witness :
    0 < ({ capacity := 2, tokens := 2, refillIntervalMs := 1000,
           lastRefill := 0 } : EndpointState).refillIntervalMs ∧
    (runTrace
        { capacity := 2, tokens := 2, refillIntervalMs := 1000, lastRefill := 0 }
        [(0, 1), (100, 1), (1000, 2)]).isSome = true ∧
    chronologicalFrom 0 [(0, 1), (100, 1), (1000, 2)] = true ∧
    windowSum (0 + 1 * 1000) (0 + (1 + 1) * 1000)
      [(0, 1), (100, 1), (1000, 2)] ≤ 2 :=
  ⟨by decide, by decide, by decide,
    rateLimiter_refill_aligned_window
      { capacity := 2, tokens := 2, refillIntervalMs := 1000, lastRefill := 0 }
      [(0, 1), (100, 1), (1000, 2)] (by decide) (by decide) (by decide)
      (by decide) 1⟩

theorem toSignedLog_exp (x : ℝ) (hx : 0 ≤ x) :
    toSignedLog (Real.exp x) = x := by
  have h1 : (1 : ℝ) ≤ Real.exp x := Real.one_le_exp hx
  have h2 : |Real.exp x| = Real.exp x := abs_of_pos (Real.exp_pos x)
  unfold toSignedLog
  rw [h2, if_neg (by linarith), if_pos (le_of_lt (Real.exp_pos x)),
    Real.log_exp]

theorem toSignedLog_eq_signedLogSpec (v : ℝ) :
    toSignedLog v = signedLogSpec v := by
  unfold toSignedLog signedLogSpec
  by_cases h1 : |v| < 1
  · rw [if_pos h1, if_neg (by linarith)]
  · push_neg at h1
    rw [if_neg (not_lt.2 h1), if_pos h1]
    by_cases h2 : 0 ≤ v
    · have hv : 0 < v := by
        rcases abs_cases v with ⟨he, _⟩ | ⟨he, hneg⟩
        · linarith
        · linarith
      rw [if_pos h2, Real.sign_of_pos hv, one_mul]
    · push_neg at h2
      rw [if_neg (not_le.2 h2), Real.sign_of_neg h2]
      ring

theorem buildAlertPayload_isSome (w : CvdWorkerSettings)
    (p : CvdAlertPayloadIn) :
    (buildAlertPayload w p).isSome = true ↔
      w.logZScoreThreshold ≤ |toSignedLog p.triggerZScore| := by
  unfold buildAlertPayload
  simp only
  split
  · rename_i h
    simp only [Option.isSome_none, Bool.false_eq_true, false_iff, not_le]
    exact h
  · rename_i h
    push_neg at h
    simp only [Option.isSome_some, true_iff]
    exact h

theorem buildAlertPayload_fields (w : CvdWorkerSettings)
    (p : CvdAlertPayloadIn) (q : ExtendedCvdAlertPayload)
    (h : buildAlertPayload w p = some q) :
    q.threshold = w.logZScoreThreshold ∧
    q.rawThreshold = w.rawZScoreThreshold ∧
    q.logTriggerZScore = toSignedLog p.triggerZScore ∧
    q.rawTriggerZScore = p.triggerZScore := by
  unfold buildAlertPayload at h
  simp only at h
  split at h
  · cases h
  · have hq := Option.some_inj.1 h
    rw [← hq]
    exact ⟨rfl, rfl, rfl, rfl⟩

theorem enqueueAlert_enabled (cfg : Option Bool) (hcfg : cfg ≠ some false)
    (w : CvdWorkerSettings) (p : CvdAlertPayloadIn) :
    enqueueAlert true cfg w p = buildAlertPayload w p := by
  unfold enqueueAlert
  have hcfg2 : (cfg == some false) = false := by
    cases cfg with
    | none => rfl
    | some b =>
      cases b with
      | false => exact absurd rfl hcfg
      | true => rfl
  rw [hcfg2]
  simp

/-- Claim C2 (amended): for every configured log-domain threshold T at
least 0.1, with alerts enabled globally and for the aggregator and the
suppression handler not vetoing (modelled as the aggregator callback
reaching the worker), the worker enqueues iff the signed log of the
trigger z-score is at least T in magnitude, and the enqueued payload
carries threshold = T, rawThreshold = exp T, logTriggerZScore =
signedLog(triggerZScore), and rawTriggerZScore = triggerZScore; the
source signed-log transform agrees with the spec formula
sign(v) * ln(abs v) for abs v at least 1, else 0. -/
theorem cvdAlert_gating (T : ℝ) (hT : (0.1 : ℝ) ≤ T) (cfg : Option Bool)
    (hcfg : cfg ≠ some false) (p : CvdAlertPayloadIn) :
    ((enqueueAlert true cfg (mkCvdWorkerSettings T) p).isSome = true ↔
      T ≤ |toSignedLog p.triggerZScore|) ∧
    (∀ q, enqueueAlert true cfg (mkCvdWorkerSettings T) p = some q →
      q.threshold = T ∧ q.rawThreshold = Real.exp T ∧
      q.logTriggerZScore = toSignedLog p.triggerZScore ∧
      q.rawTriggerZScore = p.triggerZScore) ∧
    toSignedLog p.triggerZScore = signedLogSpec p.triggerZScore := by
  have hmk_log : (mkCvdWorkerSettings T).logZScoreThreshold = T :=
    max_eq_left hT
  have hmk_raw : (mkCvdWorkerSettings T).rawZScoreThreshold = Real.exp T :=
    congrArg Real.exp (max_eq_left hT)
  rw [enqueueAlert_enabled cfg hcfg]
  refine ⟨?_, ?_, toSignedLog_eq_signedLogSpec _⟩
  · rw [buildAlertPayload_isSome, hmk_log]
  · intro q hq
    rcases buildAlertPayload_fields _ _ q hq with ⟨h1, h2, h3, h4⟩
    exact ⟨by rw [h1, hmk_log], by rw [h2, hmk_raw], h3, h4⟩

/-- Claim C2 counterexample: the configured threshold 0.05 is positive
and a payload trigger z-score of exp 0.07 satisfies
abs(signedLog) = 0.07 at least 0.05, so the claim as stated requires an
enqueue, but the worker clamps the threshold to 0.1 and enqueues
nothing. -/
theorem cvdAlert_gating_cex :
    (0 : ℝ) < 0.05 ∧
    (0.05 : ℝ) ≤ |toSignedLog cvdPayloadLowTrigger.triggerZScore| ∧
    enqueueAlert true none (mkCvdWorkerSettings 0.05)
      cvdPayloadLowTrigger = none := by
  have hts : cvdPayloadLowTrigger.triggerZScore = Real.exp 0.07 := rfl
  have hsl : toSignedLog cvdPayloadLowTrigger.triggerZScore = 0.07 := by
    rw [hts]
    exact toSignedLog_exp 0.07 (by norm_num)
  refine ⟨by norm_num, ?_, ?_⟩
  · rw [hsl, abs_of_pos (by norm_num)]
    norm_num
  · rw [enqueueAlert_enabled none (by simp)]
    unfold buildAlertPayload
    simp only
    rw [if_pos]
    have hthr : (mkCvdWorkerSettings 0.05).logZScoreThreshold = (0.1 : ℝ) :=
      max_eq_right (by norm_num)
    rw [hthr, hsl, abs_of_pos (by norm_num)]
    norm_num

/-- Claim C2 witness: the gating theorem at threshold 1 and trigger
z-score exp 2. -/
theorem cvdAlert_gating_witness :
    (0.1 : ℝ) ≤ 1 ∧ (none : Option Bool) ≠ some false ∧
    (((enqueueAlert true none (mkCvdWorkerSettings 1)
        cvdPayloadHighTrigger).isSome = true ↔
      (1 : ℝ) ≤ |toSignedLog cvdPayloadHighTrigger.triggerZScore|) ∧
    (∀ q, enqueueAlert true none (mkCvdWorkerSettings 1)
        cvdPayloadHighTrigger = some q →
      q.threshold = 1 ∧ q.rawThreshold = Real.exp 1 ∧
      q.logTriggerZScore = toSignedLog cvdPayloadHighTrigger.triggerZScore ∧
      q.rawTriggerZScore = cvdPayloadHighTrigger.triggerZScore) ∧
    toSignedLog cvdPayloadHighTrigger.triggerZScore =
      signedLogSpec cvdPayloadHighTrigger.triggerZScore) :=
  ⟨by norm_num, by simp,
    cvdAlert_gating 1 (by norm_num) none (by simp) cvdPayloadHighTrigger⟩

/-- Claim C9: the raw threshold of the worker is always the exponential of
max(configured, 0.1); every configured threshold below 0.1 yields exactly
the settings of an operator-configured 0.1, and hence identical alert
gating and persisted threshold fields. -/
theorem cvdThreshold_clamped (t : ℝ) :
    (mkCvdWorkerSettings t).rawZScoreThreshold = Real.exp (max t 0.1) ∧
    (t < 0.1 → mkCvdWorkerSettings t = mkCvdWorkerSettings 0.1) ∧
    (t < 0.1 → ∀ (e : Bool) (cfg : Option Bool) (p : CvdAlertPayloadIn),
      enqueueAlert e cfg (mkCvdWorkerSettings t) p =
        enqueueAlert e cfg (mkCvdWorkerSettings 0.1) p) := by
  have hset : ∀ u : ℝ, u < 0.1 →
      mkCvdWorkerSettings u = mkCvdWorkerSettings 0.1 := by
    intro u hu
    unfold mkCvdWorkerSettings
    rw [max_eq_right (le_of_lt hu), max_self]
  exact ⟨rfl, hset t, fun ht e cfg p => by rw [hset t ht]⟩

/-- Claim C9 witness: the clamp theorem at configured threshold 0. -/
theorem cvdThreshold_clamped_witness :
    (0 : ℝ) < 0.1 ∧
    (mkCvdWorkerSettings 0).rawZScoreThreshold = Real.exp (max 0 0.1) ∧
    mkCvdWorkerSettings 0 = mkCvdWorkerSettings 0.1 :=
  ⟨by norm_num, (cvdThreshold_clamped 0).1,
    (cvdThreshold_clamped 0).2.1 (by norm_num)⟩

theorem keeperLookup_insert_self (m : List (String × String × Int))
    (k : String) (v : String × Int) :
    keeperLookup (keeperInsert m k v) k = some v := by
  unfold keeperLookup keeperInsert
  rw [List.find?_cons_of_pos _ (by simp)]

theorem keeperLookup_insert_other (m : List (String × String × Int))
    (k kq : String) (v : String × Int) (h : kq ≠ k) :
    keeperLookup (keeperInsert m k v) kq = keeperLookup m kq := by
  unfold keeperLookup keeperInsert
  rw [List.find?_cons_of_neg _ (by simp [Ne.symm h])]
  congr 1
  induction m with
  | nil => rfl
  | cons a rest ih =>
    by_cases ha : a.1 = k
    · rw [List.filter_cons_of_neg (by simp [ha]),
        List.find?_cons_of_neg _ (by simp [ha, Ne.symm h])]
      exact ih
    · rw [List.filter_cons_of_pos (by simp [ha])]
      by_cases hpa : a.1 = kq
      · rw [List.find?_cons_of_pos _ (by simp [hpa]),
          List.find?_cons_of_pos _ (by simp [hpa])]
      · rw [List.find?_cons_of_neg _ (by simp [hpa]),
          List.find?_cons_of_neg _ (by simp [hpa])]
        exact ih

theorem DeleteReason_append (dT wT : Int) (P Q : List BackupFile) (x : String)
    (h : DeleteReason dT wT P x) : DeleteReason dT wT (P ++ Q) x := by
  obtain ⟨f, hf, t, h1, h2, h3, h4⟩ := h
  refine ⟨f, List.mem_append_left _ hf, t, h1, h2, h3, ?_⟩
  rcases h4 with h4 | ⟨hz, g, hg, tg, hg1, hg2, hg3, hg4⟩
  · exact Or.inl h4
  · exact Or.inr ⟨hz, g, List.mem_append_left _ hg, tg, hg1, hg2, hg3, hg4⟩

theorem RetentionInv_extend_kept (dT wT : Int) (P : List BackupFile)
    (st : RetentionState) (f : BackupFile)
    (hinv : RetentionInv dT wT P st)
    (hf : ∀ t, f.tsMs = some t → dT ≤ t) :
    RetentionInv dT wT (P ++ [f]) st := by
  obtain ⟨hDel, hKeep, hNone, hOld, hComp⟩ := hinv
  refine ⟨?_, ?_, ?_, ?_, ?_⟩
  · intro x hx
    exact DeleteReason_append dT wT P [f] x (hDel x hx)
  · intro k p t hk
    obtain ⟨f0, hf0, h1, h2, h3, h4, h5⟩ := hKeep k p t hk
    refine ⟨f0, List.mem_append_left _ hf0, h1, h2, h3, h4, ?_⟩
    intro g hg tg hg1 hg2 hg3
    rcases List.mem_append.1 hg with hg | hg
    · exact h5 g hg tg hg1 hg2 hg3
    · rw [List.mem_singleton] at hg
      subst hg
      exact ((not_le.2 hg2.2) (hf tg hg1)).elim
  · intro k hk g hg tg hg1 hg2
    rcases List.mem_append.1 hg with hg | hg
    · exact hNone k hk g hg tg hg1 hg2
    · rw [List.mem_singleton] at hg
      subst hg
      exact ((not_le.2 hg2.2) (hf tg hg1)).elim
  · intro g hg t h1 h2 h3
    rcases List.mem_append.1 hg with hg | hg
    · exact hOld g hg t h1 h2 h3
    · rw [List.mem_singleton] at hg
      subst hg
      exact ((not_le.2 h3) (hf t h1)).elim
  · intro g hg t h1 h2
    rcases List.mem_append.1 hg with hg | hg
    · exact hComp g hg t h1 h2
    · rw [List.mem_singleton] at hg
      subst hg
      exact ((not_le.2 h2.2) (hf t h1)).elim

theorem retentionStep_inv (dT wT : Int) (P : List BackupFile)
    (st : RetentionState) (f : BackupFile)
    (hinv : RetentionInv dT wT P st)
    (hdist : ∀ t, f.tsMs = some t → ∀ g ∈ P, ∀ tg, g.tsMs = some tg → tg ≠ t) :
    RetentionInv dT wT (P ++ [f]) (retentionStep dT wT st f) := by
  obtain ⟨hDel, hKeep, hNone, hOld, hComp⟩ := hinv
  have hfmem : f ∈ P ++ [f] := List.mem_append_right _ (List.mem_singleton_self f)
  cases hts : f.tsMs with
  | none =>
    have hstep : retentionStep dT wT st f = st := by
      unfold retentionStep
      rw [hts]
    rw [hstep]
    exact RetentionInv_extend_kept dT wT P st f
      ⟨hDel, hKeep, hNone, hOld, hComp⟩
      (fun t0 ht0 => by rw [hts] at ht0; cases ht0)
  | some t =>
    by_cases hdaily : dT ≤ t
    · have hstep : retentionStep dT wT st f = st := by
        unfold retentionStep
        rw [hts]
        simp only
        rw [if_pos hdaily]
      rw [hstep]
      refine RetentionInv_extend_kept dT wT P st f
        ⟨hDel, hKeep, hNone, hOld, hComp⟩ ?_
      intro t0 ht0
      rw [hts] at ht0
      injection ht0 with he
      rw [← he]
      exact hdaily
    · by_cases hweek : t < wT
      · have hstep : retentionStep dT wT st f =
            { st with toDelete := st.toDelete ++ [f.path] } := by
          unfold retentionStep
          rw [hts]
          simp only
          rw [if_neg hdaily, if_pos hweek]
        rw [hstep]
        refine ⟨?_, ?_, ?_, ?_, ?_⟩
        · intro x hx
          rcases List.mem_append.1 hx with hx | hx
          · exact DeleteReason_append dT wT P [f] x (hDel x hx)
          · rw [List.mem_singleton] at hx
            subst hx
            exact ⟨f, hfmem, t, hts, rfl, by omega, Or.inl hweek⟩
        · intro k p t0 hk
          obtain ⟨f0, hf0, h1, h2, h3, h4, h5⟩ := hKeep k p t0 hk
          refine ⟨f0, List.mem_append_left _ hf0, h1, h2, h3, h4, ?_⟩
          intro g hg tg hg1 hg2 hg3
          rcases List.mem_append.1 hg with hg | hg
          · exact h5 g hg tg hg1 hg2 hg3
          · rw [List.mem_singleton] at hg
            subst hg
            rw [hts] at hg1
            injection hg1 with he
            subst he
            exact ((not_le.2 hweek) hg2.1).elim
        · intro k hk g hg tg hg1 hg2
          rcases List.mem_append.1 hg with hg | hg
          · exact hNone k hk g hg tg hg1 hg2
          · rw [List.mem_singleton] at hg
            subst hg
            rw [hts] at hg1
            injection hg1 with he
            subst he
            exact ((not_le.2 hweek) hg2.1).elim
        · intro g hg t0 h1 h2 h3
          rcases List.mem_append.1 hg with hg | hg
          · exact List.mem_append_left _ (hOld g hg t0 h1 h2 h3)
          · rw [List.mem_singleton] at hg
            subst hg
            exact List.mem_append_right _ (List.mem_singleton_self _)
        · intro g hg t0 h1 h2
          rcases List.mem_append.1 hg with hg | hg
          · rcases hComp g hg t0 h1 h2 with hin | hkeep2
            · exact Or.inl (List.mem_append_left _ hin)
            · exact Or.inr hkeep2
          · rw [List.mem_singleton] at hg
            subst hg
            rw [hts] at h1
            injection h1 with he
            subst he
            exact ((not_le.2 hweek) h2.1).elim
      · have hzone : inWeeklyZone dT wT t := ⟨by omega, by omega⟩
        cases hlook : keeperLookup st.weeklyKeeper (getIsoWeekKey t) with
        | some existing =>
          obtain ⟨pe, te⟩ := existing
          obtain ⟨f0, hf0, hf01, hf02, hf03, hf04, hf05⟩ := hKeep _ _ _ hlook
          by_cases hnewer : te < t
          · have hstep : retentionStep dT wT st f =
                { toDelete := st.toDelete ++ [pe]
                  weeklyKeeper := keeperInsert st.weeklyKeeper
                    (getIsoWeekKey t) (f.path, t) } := by
              unfold retentionStep
              rw [hts]
              simp only
              rw [if_neg hdaily, if_neg hweek, hlook]
              simp only
              rw [if_pos hnewer]
            rw [hstep]
            refine ⟨?_, ?_, ?_, ?_, ?_⟩
            · intro x hx
              rcases List.mem_append.1 hx with hx | hx
              · exact DeleteReason_append dT wT P [f] x (hDel x hx)
              · rw [List.mem_singleton] at hx
                subst hx
                exact ⟨f0, List.mem_append_left _ hf0, te, hf01, hf02,
                  hf03.2, Or.inr ⟨hf03, f, hfmem, t, hts, hzone, hf04.symm,
                    hnewer⟩⟩
            · intro k p t0 hk
              by_cases hkk : k = getIsoWeekKey t
              · subst hkk
                rw [keeperLookup_insert_self] at hk
                injection hk with hk2
                obtain ⟨hp, ht0⟩ := Prod.mk.injEq .. ▸ hk2
                subst hp
                subst ht0
                refine ⟨f, hfmem, hts, rfl, hzone, rfl, ?_⟩
                intro g hg tg hg1 hg2 hg3
                rcases List.mem_append.1 hg with hg | hg
                · have := hf05 g hg tg hg1 hg2 hg3
                  omega
                · rw [List.mem_singleton] at hg
                  subst hg
                  rw [hts] at hg1
                  injection hg1 with he
                  omega
              · rw [keeperLookup_insert_other _ _ _ _ hkk] at hk
                obtain ⟨f1, hf1, g1, g2, g3, g4, g5⟩ := hKeep k p t0 hk
                refine ⟨f1, List.mem_append_left _ hf1, g1, g2, g3, g4, ?_⟩
                intro g hg tg hg1 hg2 hg3
                rcases List.mem_append.1 hg with hg | hg
                · exact g5 g hg tg hg1 hg2 hg3
                · rw [List.mem_singleton] at hg
                  subst hg
                  rw [hts] at hg1
                  injection hg1 with he
                  subst he
                  exact (hkk hg3.symm).elim
            · intro k hk g hg tg hg1 hg2
              by_cases hkk : k = getIsoWeekKey t
              · subst hkk
                rw [keeperLookup_insert_self] at hk
                cases hk
              · rw [keeperLookup_insert_other _ _ _ _ hkk] at hk
                rcases List.mem_append.1 hg with hg | hg
                · exact hNone k hk g hg tg hg1 hg2
                · rw [List.mem_singleton] at hg
                  subst hg
                  rw [hts] at hg1
                  injection hg1 with he
                  subst he
                  exact fun heq => hkk heq.symm
            · intro g hg t0 h1 h2 h3
              rcases List.mem_append.1 hg with hg | hg
              · exact List.mem_append_left _ (hOld g hg t0 h1 h2 h3)
              · rw [List.mem_singleton] at hg
                subst hg
                rw [hts] at h1
                injection h1 with he
                subst he
                exact (hweek h2).elim
            · intro g hg t0 h1 h2
              rcases List.mem_append.1 hg with hg | hg
              · rcases hComp g hg t0 h1 h2 with hin | hkeep2
                · exact Or.inl (List.mem_append_left _ hin)
                · by_cases hkk : getIsoWeekKey t0 = getIsoWeekKey t
                  · rw [hkk, hlook] at hkeep2
                    injection hkeep2 with hk2
                    obtain ⟨hp, ht0⟩ := Prod.mk.injEq .. ▸ hk2
                    refine Or.inl (List.mem_append_right _ ?_)
                    rw [hp]
                    exact List.mem_singleton_self _
                  · refine Or.inr ?_
                    rw [keeperLookup_insert_other _ _ _ _ hkk]
                    exact hkeep2
              · rw [List.mem_singleton] at hg
                subst hg
                rw [hts] at h1
                injection h1 with he
                subst he
                exact Or.inr (keeperLookup_insert_self _ _ _)
          · have hne : t ≠ te := fun heq =>
              (hdist t hts f0 hf0 te hf01) heq.symm
            have hlt : t < te := by omega
            have hstep : retentionStep dT wT st f =
                { st with toDelete := st.toDelete ++ [f.path] } := by
              unfold retentionStep
              rw [hts]
              simp only
              rw [if_neg hdaily, if_neg hweek, hlook]
              simp only
              rw [if_neg hnewer]
            rw [hstep]
            refine ⟨?_, ?_, ?_, ?_, ?_⟩
            · intro x hx
              rcases List.mem_append.1 hx with hx | hx
              · exact DeleteReason_append dT wT P [f] x (hDel x hx)
              · rw [List.mem_singleton] at hx
                subst hx
                exact ⟨f, hfmem, t, hts, rfl, hzone.2,
                  Or.inr ⟨hzone, f0, List.mem_append_left _ hf0, te, hf01,
                    hf03, hf04, hlt⟩⟩
            · intro k p t0 hk
              obtain ⟨f1, hf1, g1, g2, g3, g4, g5⟩ := hKeep k p t0 hk
              refine ⟨f1, List.mem_append_left _ hf1, g1, g2, g3, g4, ?_⟩
              intro g hg tg hg1 hg2 hg3
              rcases List.mem_append.1 hg with hg | hg
              · exact g5 g hg tg hg1 hg2 hg3
              · rw [List.mem_singleton] at hg
                subst hg
                rw [hts] at hg1
                injection hg1 with he
                subst he
                rw [← hg3] at hk
                rw [hlook] at hk
                injection hk with hk2
                obtain ⟨hp, ht0⟩ := Prod.mk.injEq .. ▸ hk2
                omega
            · intro k hk g hg tg hg1 hg2
              rcases List.mem_append.1 hg with hg | hg
              · exact hNone k hk g hg tg hg1 hg2
              · rw [List.mem_singleton] at hg
                subst hg
                rw [hts] at hg1
                injection hg1 with he
                subst he
                intro heq
                rw [← heq, hlook] at hk
                cases hk
            · intro g hg t0 h1 h2 h3
              rcases List.mem_append.1 hg with hg | hg
              · exact List.mem_append_left _ (hOld g hg t0 h1 h2 h3)
              · rw [List.mem_singleton] at hg
                subst hg
                rw [hts] at h1
                injection h1 with he
                subst he
                exact (hweek h2).elim
            · intro g hg t0 h1 h2
              rcases List.mem_append.1 hg with hg | hg
              · rcases hComp g hg t0 h1 h2 with hin | hkeep2
                · exact Or.inl (List.mem_append_left _ hin)
                · exact Or.inr hkeep2
              · rw [List.mem_singleton] at hg
                subst hg
                rw [hts] at h1
                injection h1 with he
                subst he
                exact Or.inl (List.mem_append_right _
                  (List.mem_singleton_self _))
        | none =>
          have hstep : retentionStep dT wT st f =
              { st with weeklyKeeper :=
                  keeperInsert st.weeklyKeeper (getIsoWeekKey t) (f.path, t) } := by
            unfold retentionStep
            rw [hts]
            simp only
            rw [if_neg hdaily, if_neg hweek, hlook]
          rw [hstep]
          refine ⟨?_, ?_, ?_, ?_, ?_⟩
          · intro x hx
            exact DeleteReason_append dT wT P [f] x (hDel x hx)
          · intro k p t0 hk
            by_cases hkk : k = getIsoWeekKey t
            · subst hkk
              rw [keeperLookup_insert_self] at hk
              injection hk with hk2
              obtain ⟨hp, ht0⟩ := Prod.mk.injEq .. ▸ hk2
              subst hp
              subst ht0
              refine ⟨f, hfmem, hts, rfl, hzone, rfl, ?_⟩
              intro g hg tg hg1 hg2 hg3
              rcases List.mem_append.1 hg with hg | hg
              · exact (hNone _ hlook g hg tg hg1 hg2 hg3).elim
              · rw [List.mem_singleton] at hg
                subst hg
                rw [hts] at hg1
                injection hg1 with he
                omega
            · rw [keeperLookup_insert_other _ _ _ _ hkk] at hk
              obtain ⟨f1, hf1, g1, g2, g3, g4, g5⟩ := hKeep k p t0 hk
              refine ⟨f1, List.mem_append_left _ hf1, g1, g2, g3, g4, ?_⟩
              intro g hg tg hg1 hg2 hg3
              rcases List.mem_append.1 hg with hg | hg
              · exact g5 g hg tg hg1 hg2 hg3
              · rw [List.mem_singleton] at hg
                subst hg
                rw [hts] at hg1
                injection hg1 with he
                subst he
                exact (hkk hg3.symm).elim
          · intro k hk g hg tg hg1 hg2
            by_cases hkk : k = getIsoWeekKey t
            · subst hkk
              rw [keeperLookup_insert_self] at hk
              cases hk
            · rw [keeperLookup_insert_other _ _ _ _ hkk] at hk
              rcases List.mem_append.1 hg with hg | hg
              · exact hNone k hk g hg tg hg1 hg2
              · rw [List.mem_singleton] at hg
                subst hg
                rw [hts] at hg1
                injection hg1 with he
                subst he
                exact fun heq => hkk heq.symm
          · intro g hg t0 h1 h2 h3
            rcases List.mem_append.1 hg with hg | hg
            · exact hOld g hg t0 h1 h2 h3
            · rw [List.mem_singleton] at hg
              subst hg
              rw [hts] at h1
              injection h1 with he
              subst he
              exact (hweek h2).elim
          · intro g hg t0 h1 h2
            rcases List.mem_append.1 hg with hg | hg
            · rcases hComp g hg t0 h1 h2 with hin | hkeep2
              · exact Or.inl hin
              · by_cases hkk : getIsoWeekKey t0 = getIsoWeekKey t
                · rw [hkk, hlook] at hkeep2
                  cases hkeep2
                · refine Or.inr ?_
                  rw [keeperLookup_insert_other _ _ _ _ hkk]
                  exact hkeep2
            · rw [List.mem_singleton] at hg
              subst hg
              rw [hts] at h1
              injection h1 with he
              subst he
              exact Or.inr (keeperLookup_insert_self _ _ _)

theorem RetentionInv_empty (dT wT : Int) :
    RetentionInv dT wT [] ⟨[], []⟩ := by
  refine ⟨?_, ?_, ?_, ?_, ?_⟩
  · intro x hx
    cases hx
  · intro k p t hk
    cases hk
  · intro k _ g hg
    cases hg
  · intro g hg
    cases hg
  · intro g hg
    cases hg

theorem retention_fold_inv (dT wT : Int) :
    ∀ (rest P : List BackupFile) (st : RetentionState),
      RetentionInv dT wT P st →
      (P ++ rest).Pairwise (fun a b => a.tsMs = none ∨ a.tsMs ≠ b.tsMs) →
      RetentionInv dT wT (P ++ rest) (rest.foldl (retentionStep dT wT) st) := by
  intro rest
  induction rest with
  | nil =>
    intro P st h _
    simpa using h
  | cons f rest ih =>
    intro P st hinv hdist
    have hcross := (List.pairwise_append.1 hdist).2.2
    have hd : ∀ t, f.tsMs = some t →
        ∀ g ∈ P, ∀ tg, g.tsMs = some tg → tg ≠ t := by
      intro t ht g hg tg htg
      rcases hcross g hg f (List.mem_cons_self _ _) with hn | hne
      · rw [hn] at htg
        cases htg
      · intro hEq
        rw [ht, htg, hEq] at hne
        exact hne rfl
    have hstep := retentionStep_inv dT wT P st f hinv hd
    have hassoc : P ++ f :: rest = (P ++ [f]) ++ rest := by simp
    rw [hassoc]
    exact ih (P ++ [f]) (retentionStep dT wT st f) hstep
      (by rw [← hassoc]; exact hdist)

/-- Claim C7 (amended): for a retention policy whose daily horizon is
within the weekly horizon (dailyDays * 24h at most weeklyWeeks * 7d, as
in both shipped policies), with parseable timestamps pairwise distinct
and paths pairwise distinct, one enforceRetention pass deletes a
parseable file iff it is older than the weekly threshold, or it lies in
the weekly zone and a strictly newer file of the same ISO week lies in
the weekly zone; equivalently: everything at or after the daily
threshold is kept, exactly the newest file per ISO week of the weekly
zone is kept, and everything older than the weekly threshold is
deleted. -/
theorem enforceRetention_buckets (now dailyDays weeklyWeeks : Int)
    (files : List BackupFile)
    (hwin : now - weeklyWeeks * 7 * 24 * 60 * 60 * 1000 ≤
      now - dailyDays * 24 * 60 * 60 * 1000)
    (hts : files.Pairwise (fun a b => a.tsMs = none ∨ a.tsMs ≠ b.tsMs))
    (hpaths : files.Pairwise (fun a b => a.path ≠ b.path)) :
    ∀ f ∈ files, ∀ t, f.tsMs = some t →
      (f.path ∈ enforceRetention now dailyDays weeklyWeeks files ↔
        (t < now - weeklyWeeks * 7 * 24 * 60 * 60 * 1000 ∨
          (inWeeklyZone (now - dailyDays * 24 * 60 * 60 * 1000)
              (now - weeklyWeeks * 7 * 24 * 60 * 60 * 1000) t ∧
            ∃ g ∈ files, ∃ tg, g.tsMs = some tg ∧
              inWeeklyZone (now - dailyDays * 24 * 60 * 60 * 1000)
                (now - weeklyWeeks * 7 * 24 * 60 * 60 * 1000) tg ∧
              getIsoWeekKey tg = getIsoWeekKey t ∧ t < tg))) := by
  intro f hf t ht
  have hinv := retention_fold_inv
    (now - dailyDays * 24 * 60 * 60 * 1000)
    (now - weeklyWeeks * 7 * 24 * 60 * 60 * 1000)
    files [] ⟨[], []⟩
    (RetentionInv_empty _ _) (by simpa using hts)
  rw [List.nil_append] at hinv
  obtain ⟨hDel, hKeep, _, hOld, hComp⟩ := hinv
  have hpathinj : ∀ a ∈ files, ∀ b ∈ files, a.path = b.path → a = b := by
    intro a ha b hb hab
    by_cases hne : a = b
    · exact hne
    · have hsymm : Symmetric (fun a b : BackupFile => a.path ≠ b.path) := by
        intro x y h e
        exact h e.symm
      exact absurd hab (List.Pairwise.forall hsymm hpaths ha hb hne)
  constructor
  · intro hdel
    obtain ⟨f1, hf1, t1, e1, e2, e3, e4⟩ := hDel _ hdel
    have hff : f1 = f := hpathinj f1 hf1 f hf e2
    subst hff
    rw [ht] at e1
    injection e1 with he
    subst he
    rcases e4 with e4 | ⟨hz, g, hg, tg, g1, g2, g3, g4⟩
    · exact Or.inl e4
    · exact Or.inr ⟨hz, g, hg, tg, g1, g2, g3, g4⟩
  · intro hreason
    rcases hreason with hold | ⟨hz, g, hg, tg, g1, g2, g3, g4⟩
    · exact hOld f hf t ht hold (by omega)
    · rcases hComp f hf t ht hz with hin | hkeep2
      · exact hin
      · obtain ⟨f1, hf1, k1, k2, k3, k4, k5⟩ := hKeep _ _ _ hkeep2
        have := k5 g hg tg g1 g2 (by rw [g3])
        omega

/-- Claim C7 counterexample: under the policy dailyDays = 30,
weeklyWeeks = 1 (daily horizon past the weekly horizon), a file 20 days
old is older than the weekly threshold, so the claim as stated requires
its deletion, yet the pass deletes nothing because the daily-keep rule
is checked first. -/
theorem enforceRetention_policy_cex :
    (70 * 86400000 : Int) <
      90 * 86400000 - 1 * 7 * 24 * 60 * 60 * 1000 ∧
    enforceRetention (90 * 86400000) 30 1
      [{ path := "binance_data_19700312T000000Z.sqlite",
         tsMs := some (70 * 86400000) }] = [] := by
  constructor
  · decide
  · rfl

/-- Claim C7 witness: the bucket characterization applied to three
concrete files, two of which share ISO week 1970-W05 inside the weekly
zone; the evaluation confirms that exactly the older of the two is
deleted. -/
theorem enforceRetention_buckets_witness :
    ((40 * 86400000 - 3 * 7 * 24 * 60 * 60 * 1000 : Int) ≤
      40 * 86400000 - 1 * 24 * 60 * 60 * 1000) ∧
    retFilesEx.Pairwise (fun a b => a.tsMs = none ∨ a.tsMs ≠ b.tsMs) ∧
    retFilesEx.Pairwise (fun a b => a.path ≠ b.path) ∧
    enforceRetention (40 * 86400000) 1 3 retFilesEx =
      ["binance_data_19700126T000000Z.sqlite"] ∧
    (∀ f ∈ retFilesEx, ∀ t, f.tsMs = some t →
      (f.path ∈ enforceRetention (40 * 86400000) 1 3 retFilesEx ↔
        (t < 40 * 86400000 - 3 * 7 * 24 * 60 * 60 * 1000 ∨
          (inWeeklyZone (40 * 86400000 - 1 * 24 * 60 * 60 * 1000)
              (40 * 86400000 - 3 * 7 * 24 * 60 * 60 * 1000) t ∧
            ∃ g ∈ retFilesEx, ∃ tg, g.tsMs = some tg ∧
              inWeeklyZone (40 * 86400000 - 1 * 24 * 60 * 60 * 1000)
                (40 * 86400000 - 3 * 7 * 24 * 60 * 60 * 1000) tg ∧
              getIsoWeekKey tg = getIsoWeekKey t ∧ t < tg)))) :=
  ⟨by decide, by decide, by decide, by decide,
    enforceRetention_buckets (40 * 86400000) 1 3 retFilesEx (by decide)
      (by decide) (by decide)⟩
